import Mathlib

/-!
Verification development for the yammy YAML/JSON composition engine.

The Go sources are embedded shallowly: the mutable `node` tree becomes a
functional inductive tree, in-place mutation becomes rebuilding, and Go's
`(value, error)` returns become `Except`.  Machine integers are modelled by
`Nat`/`Int` (the indices involved are tiny, so overflow never matters), and
byte indexing of strings by `Char` positions (all inputs of interest are
ASCII, where the two coincide).
-/

namespace Yammy

/-- The node kinds of `gopkg.in/yaml.v3`, as used by the repository. -/
inductive Kind where
  | document
  | mapping
  | sequence
  | scalar
  | alias
deriving DecidableEq, Repr

/-- Embedding of the repository's `node` struct: kind, scalar value, tag,
source file, source line, and ordered children (`Content`).  For a Mapping
the children alternate key node / value node. -/
inductive Node where
  | mk (kind : Kind) (value : String) (tag : String) (file : String)
       (line : Nat) (content : List Node)

def Node.kind : Node → Kind
  | .mk k _ _ _ _ _ => k

def Node.value : Node → String
  | .mk _ v _ _ _ _ => v

def Node.tag : Node → String
  | .mk _ _ t _ _ _ => t

def Node.file : Node → String
  | .mk _ _ _ f _ _ => f

def Node.line : Node → Nat
  | .mk _ _ _ _ l _ => l

def Node.content : Node → List Node
  | .mk _ _ _ _ _ c => c

/-- Replace the children of a node, keeping every other field: the functional
counterpart of assigning to `n.Content`. -/
def Node.withContent : Node → List Node → Node
  | .mk k v t f l _, c => .mk k v t f l c

@[simp] theorem Node.kind_withContent (n : Node) (c : List Node) :
    (n.withContent c).kind = n.kind := by
  cases n; rfl

@[simp] theorem Node.content_withContent (n : Node) (c : List Node) :
    (n.withContent c).content = c := by
  cases n; rfl

@[simp] theorem Node.value_withContent (n : Node) (c : List Node) :
    (n.withContent c).value = n.value := by
  cases n; rfl

/-- `newStringNode` from node.go: a fresh scalar string node (yaml's
`SetString` sets the `!!str` tag; a fresh yaml.Node has line 0). -/
def newStringNode (s file : String) : Node :=
  .mk .scalar s "!!str" file 0 []

/-- Modelled from the spec: `newMappingNode` is called by
`ensureJSONPointerParent` in load.go but its definition is not among the
provided sources.  Per the spec's auto-vivification rule it creates an empty
Mapping container carrying the creating file. -/
def newMappingNode (file : String) : Node :=
  .mk .mapping "" "" file 0 []

/-- Modelled from the spec: `newSequenceNode` is called by
`ensureJSONPointerParent` in load.go but its definition is not among the
provided sources.  Per the spec's auto-vivification rule it creates an empty
Sequence container carrying the creating file. -/
def newSequenceNode (file : String) : Node :=
  .mk .sequence "" "" file 0 []

/-- `KindString` from node.go. -/
def Node.kindString (n : Node) : String :=
  match n.kind with
  | .document => "document"
  | .sequence => "sequence"
  | .mapping => "mapping"
  | .scalar => "scalar"
  | .alias => "alias"

/-- The pair loop of `Get` (`ForEachMap` looking for the first key equal to
`key` and returning its value).  A trailing odd child is never visited, as in
the Go loop over even indices. -/
def getAux (key : String) : List Node → Option Node
  | k :: v :: rest => if k.value = key then some v else getAux key rest
  | _ => none

/-- `Get` from node.go: `nil` on non-mappings, else the first value whose key
matches. -/
def Node.get (n : Node) (key : String) : Option Node :=
  if n.kind = .mapping then getAux key n.content else none

/-- The pair loop of `HasKey`. -/
def hasKeyAux (key : String) : List Node → Bool
  | k :: _ :: rest => k.value = key || hasKeyAux key rest
  | _ => false

/-- `HasKey` from node.go. -/
def Node.hasKey (n : Node) (key : Node) : Bool :=
  if n.kind = .mapping then hasKeyAux key.value n.content else false

/-- The pair loop of `Delete`: drop every pair whose key matches, remembering
the value of the last dropped pair (`ret` is overwritten on each match in Go,
so later matches win). -/
def deleteAux (key : String) : List Node → List Node × Option Node
  | k :: v :: rest =>
    let r := deleteAux key rest
    if k.value = key then (r.1, if r.2.isSome then r.2 else some v)
    else (k :: v :: r.1, r.2)
  | _ => ([], none)

/-- `Delete` from node.go: returns the updated node and the removed value
(`none` both for non-mappings and for an absent key). -/
def Node.delete (n : Node) (key : String) : Node × Option Node :=
  if n.kind = .mapping then
    let r := deleteAux key n.content
    (n.withContent r.1, r.2)
  else (n, none)

/-- The first loop of `Put`: replace the value of the first pair whose key
equals the new key's value, returning the new pair list and the old value;
`none` when no pair matches. -/
def putReplace (key value : Node) : List Node → Option (List Node × Node)
  | k :: v :: rest =>
    if k.value = key.value then some (k :: value :: rest, v)
    else (putReplace key value rest).map (fun r => (k :: v :: r.1, r.2))
  | _ => none

/-- The second loop of `Put` plus the insertion: a Scalar key is inserted
before the first existing key it is lexically smaller than (the loop reads
only the even positions), any other key is appended at the end
(`pos = len(n.Content)` when the loop never breaks). -/
def putInsert (key value : Node) : List Node → List Node
  | k :: v :: rest =>
    if key.kind = .scalar ∧ key.value < k.value then key :: value :: k :: v :: rest
    else k :: v :: putInsert key value rest
  | [k] =>
    if key.kind = .scalar ∧ key.value < k.value then key :: value :: [k]
    else [k] ++ [key, value]
  | [] => [key, value]

/-- `Put` from node.go: returns the updated node and the previous value
(`none` for a fresh key or a non-mapping receiver, which Go leaves
untouched). -/
def Node.put (n : Node) (key value : Node) : Node × Option Node :=
  if n.kind = .mapping then
    match putReplace key value n.content with
    | some r => (n.withContent r.1, some r.2)
    | none => (n.withContent (putInsert key value n.content), none)
  else (n, none)

/-- `Append` from node.go: no-op on non-sequences. -/
def Node.append (n value : Node) : Node :=
  if n.kind = .sequence then n.withContent (n.content ++ [value]) else n

@[simp] theorem Node.sizeOf_content_lt (n : Node) : sizeOf n.content < sizeOf n := by
  cases n with
  | mk k v t f l c => simp [Node.content]

mutual

/-- `Merge` from node.go.  The Go version returns `(*node, error)` but no
code path produces a non-nil error, so the embedding is total.  On a kind
mismatch the overlay wins; Mappings merge key-wise (`Get` is non-nil exactly
when `HasKey` holds, so the embedding branches on `Get` directly); Sequences
concatenate; anything else is overwritten by the overlay. -/
def Node.merge (n other : Node) : Node :=
  if n.kind ≠ other.kind then other
  else match n.kind with
    | .mapping => mergeMapPairs n other.content
    | .sequence => n.withContent (n.content ++ other.content)
    | _ => other
termination_by sizeOf other
decreasing_by simp_wf

/-- The `ForEachMap` fold inside `Merge`'s Mapping case: for each overlay
pair, merge with the existing value when present, else put as a new key. -/
def mergeMapPairs (n : Node) : List Node → Node
  | k :: v :: rest =>
    let n2 := match n.get k.value with
      | some cur => (n.put k (cur.merge v)).1
      | none => (n.put k v).1
    mergeMapPairs n2 rest
  | _ => n
termination_by l => sizeOf l
decreasing_by
  all_goals simp_wf
  all_goals omega

end

/-! ## JSON Pointer parsing and resolution (util.go / node.go) -/

/-- Digit run to a number, as `strconv.Atoi`'s accumulation. -/
def digitsToNat (ds : List Char) : Nat :=
  ds.foldl (fun a c => a * 10 + (c.toNat - 48)) 0

/-- Model of Go's `strconv.Atoi`: an optional sign followed by a non-empty
run of decimal digits.  Overflow is not modelled (pointer indices are far
below the 64-bit range). -/
def goAtoi (s : String) : Option Int :=
  match s.toList with
  | [] => none
  | c :: rest =>
    let signed : Bool × List Char :=
      if c = '-' then (true, rest)
      else if c = '+' then (false, rest) else (false, c :: rest)
    if signed.2 ≠ [] ∧ signed.2.all (fun d => '0' ≤ d ∧ d ≤ '9') then
      some (if signed.1 then -(digitsToNat signed.2 : Int) else (digitsToNat signed.2 : Int))
    else none

/-- `jsonPointerToken` from util.go (the `Path` field is never read by the
resolution or patch code and is omitted). -/
structure JPToken where
  str : String
  isIndex : Bool
  index : Int
  original : String
deriving DecidableEq, Repr

/-- `IsLastIndex` from util.go. -/
def JPToken.isLastIndex (t : JPToken) : Bool :=
  t.isIndex && t.index < 0

/-- Left-to-right non-overlapping replacement of the two-character sequence
`a b` by `c`: the effect of Go's `strings.ReplaceAll` for the `~1`/`~0`
unescapes. -/
def replacePair (a b c : Char) : List Char → List Char
  | x :: y :: rest =>
    if x = a ∧ y = b then c :: replacePair a b c rest
    else x :: replacePair a b c (y :: rest)
  | other => other

/-- The two `strings.ReplaceAll` passes of `parseJSONPointer`:
`~1` to `/`, then `~0` to `~`. -/
def unescapeJPToken (cs : List Char) : List Char :=
  replacePair '~' '0' '~' (replacePair '~' '1' '/' cs)

/-- The per-token body of `parseJSONPointer`: unescape `~1`/`~0`, mark a
non-negative `Atoi` result as an index, and mark `-` as the append index. -/
def parseJPToken (part : String) : JPToken :=
  let s := String.mk (unescapeJPToken part.toList)
  let t : JPToken := { str := s, isIndex := false, index := 0, original := part }
  let t := match goAtoi s with
    | some v => if v > -1 then { t with index := v, isIndex := true } else t
    | none => t
  if s = "-" then { t with index := -1, isIndex := true } else t

/-- `strings.Split` on the single separator `/` (`Split("", "/") = [""]`,
and every separator opens a new field). -/
def splitOnSlash : List Char → List (List Char)
  | [] => [[]]
  | c :: rest =>
    let r := splitOnSlash rest
    if c = '/' then [] :: r
    else
      match r with
      | h :: t => (c :: h) :: t
      | [] => [[c]]

/-- `parseJSONPointer` from util.go: the path must start with `/`; the rest
is split on `/`. -/
def parseJSONPointer (path : String) : Option (List JPToken) :=
  match path.toList with
  | '/' :: rest =>
    some ((splitOnSlash rest).map (fun cs => parseJPToken (String.mk cs)))
  | _ => none

/-- `strings.Join` with the `/` separator, for `jsonPointer.String`. -/
def joinSlash : List String → String
  | [] => ""
  | [s] => s
  | s :: rest => s ++ "/" ++ joinSlash rest

/-- `jsonPointer.String` from util.go. -/
def jpString (p : List JPToken) : String :=
  "/" ++ joinSlash (p.map (fun t => t.original))

/-- `jsonPointer.Pop` from util.go (callers only invoke it on non-empty
pointers; the default token stands in for Go's panic on an empty slice). -/
def jpPop (p : List JPToken) : List JPToken × JPToken :=
  (p.dropLast, p.getLast?.getD { str := "", isIndex := false, index := 0, original := "" })

/-- The error values flowing out of pointer resolution and the patch
interpreter.  `notFound` and `afterLast` model the two sentinel error values
(`errNotFound`, `errAfterLastElement`) which Go compares by identity;
`msg` models every `fmt.Errorf` product, which is a fresh flat error value
that `errors.Is` never identifies with a sentinel. -/
inductive PErr where
  | notFound
  | afterLast
  | msg (s : String)
deriving DecidableEq, Repr

/-- The message text of an error, as `err.Error()`. -/
def PErr.message : PErr → String
  | .notFound => "can not find nodes matches path"
  | .afterLast => "after last element"
  | .msg s => s

def nullNode : Node := .mk .scalar "" "" "" 0 []

/-- `findNodeByJSONPointer` (the recursive helper) from node.go, consuming
the token list left to right. -/
def findNodeByJSONPointerAux : Node → List JPToken → Except PErr Node
  | n, [] => Except.ok n
  | n, t :: rest =>
    match n.get t.str with
    | some c => findNodeByJSONPointerAux c rest
    | none =>
      if ¬t.isIndex then Except.error PErr.notFound
      else if n.kind ≠ .sequence then
        Except.error (PErr.msg ("can not evaluate an index " ++ toString t.index ++
          " on " ++ n.kindString ++ " object"))
      else if t.index < 0 then Except.error PErr.afterLast
      else if t.index ≥ (n.content.length : Int) then
        Except.error (PErr.msg ("out of bounds index " ++ toString t.index))
      else findNodeByJSONPointerAux (n.content.getD t.index.toNat nullNode) rest

/-- `FindNodeByJSONPointer` (the method) from node.go: parse, special-case
the root path `/`, and wrap any resolution failure into a fresh flat error
via `fmt.Errorf("%s: %s", ...)` — which does not preserve the sentinel
identity. -/
def Node.findByPointerStr (n : Node) (path : String) : Except PErr Node :=
  match parseJSONPointer path with
  | none => Except.error (PErr.msg ("Invalid JSON Pointer: " ++ path))
  | some p =>
    if path = "/" then Except.ok n
    else
      match findNodeByJSONPointerAux n p with
      | Except.ok r => Except.ok r
      | Except.error e => Except.error (PErr.msg (path ++ ": " ++ e.message))

/-! ## Patch interpreter (load.go)

Go resolves the parent node and then mutates it in place inside the shared
tree.  The functional counterpart re-walks the same path and rebuilds the
spine; `modifyAtPointer` follows exactly the traversal (and error behaviour)
of `FindNodeByJSONPointer` and applies an operation at the target. -/

/-- Replace the value of the first pair whose key matches: the functional
image of mutating the node returned by `Get`. -/
def setMapValue (key : String) (newV : Node) : List Node → List Node
  | k :: v :: rest =>
    if k.value = key then k :: newV :: rest else k :: v :: setMapValue key newV rest
  | rest => rest

/-- The rebuild-along-the-path walk: same control flow and errors as
`findNodeByJSONPointer`, with the spine rebuilt around the modified child. -/
def modifyAux (f : Node → Except PErr Node) : Node → List JPToken → Except PErr Node
  | n, [] => f n
  | n, t :: rest =>
    match n.get t.str with
    | some c =>
      (modifyAux f c rest).map (fun c2 => n.withContent (setMapValue t.str c2 n.content))
    | none =>
      if ¬t.isIndex then Except.error PErr.notFound
      else if n.kind ≠ .sequence then
        Except.error (PErr.msg ("can not evaluate an index " ++ toString t.index ++
          " on " ++ n.kindString ++ " object"))
      else if t.index < 0 then Except.error PErr.afterLast
      else if t.index ≥ (n.content.length : Int) then
        Except.error (PErr.msg ("out of bounds index " ++ toString t.index))
      else
        (modifyAux f (n.content.getD t.index.toNat nullNode) rest).map
          (fun c2 => n.withContent (n.content.set t.index.toNat c2))

/-- Re-walk the parent tokens exactly as `FindNodeByJSONPointer` walks
`parent.String()` (including the `/` root special case) and apply `f` to the
resolved node, rebuilding the tree.  The patch operations call this only
after `findByPointerStr` has already succeeded on the same parent, so the
walk itself cannot fail and the only errors surfacing here are `f`'s own,
which Go returns unwrapped. -/
def modifyAtPointer (n : Node) (parent : List JPToken) (f : Node → Except PErr Node) :
    Except PErr Node :=
  if jpString parent = "/" then f n
  else modifyAux f n parent

/-- The operation `jsonPatchAdd` performs once the parent is resolved:
sequence append / bounds-checked insert-before, mapping put, or the
unsupported-kind error. -/
def jsonPatchAddAt (child : JPToken) (parentStr file : String) (newValue : Node)
    (target : Node) : Except PErr Node :=
  if child.isIndex ∧ target.kind = .sequence then
    if child.index < 0 then
      Except.ok (target.withContent (target.content ++ [newValue]))
    else if child.index > (target.content.length : Int) then
      Except.error (PErr.msg ("can not perform an add value before index " ++
        toString child.index ++ "(path: " ++ parentStr ++ ", size: " ++
        toString target.content.length ++ ")"))
    else
      Except.ok (target.withContent
        (target.content.take child.index.toNat ++ newValue ::
          target.content.drop child.index.toNat))
  else if target.kind = .mapping then
    Except.ok ((target.put (newStringNode child.str file) newValue).1)
  else
    Except.error (PErr.msg ("can not perform an add '" ++ child.original ++
      "' key operation on (an) " ++ target.kindString ++ " node(path: " ++
      parentStr ++ ")"))

/-- `ensureJSONPointerParent`'s walk from load.go, rebuilding functionally.
When the lookahead token is an index a Sequence is created, otherwise a
Mapping.  Go indexes `parent.Content[t.Index]` immediately after checking
`len(parent.Content) <= t.Index`, which panics; that abnormal exit is
modelled as an error value. -/
def ensureAux : Node → List JPToken → Except PErr Node
  | parent, t :: nxt :: rest =>
    if t.isIndex ∧ parent.kind = .sequence ∧ (parent.content.length : Int) ≤ t.index then
      Except.error (PErr.msg "panic: index out of range")
    else if parent.kind = .mapping then
      let child := match parent.get t.str with
        | some v => v
        | none => if nxt.isIndex then newSequenceNode parent.file else newMappingNode parent.file
      match ensureAux child (nxt :: rest) with
      | Except.error e => Except.error e
      | Except.ok child2 =>
        Except.ok ((parent.put (newStringNode t.str parent.file) child2).1)
    else
      Except.error (PErr.msg ("can not evaluate an index " ++ t.str ++
        " on *yammy.node object"))
  | parent, _ => Except.ok parent

/-- `ensureJSONPointerParent` from load.go: create the missing intermediate
containers for all but the final pointer token. -/
def ensureJSONPointerParent (obj : Node) (pointer : List JPToken) : Except PErr Node :=
  ensureAux obj pointer

/-- `jsonPatchAdd` from load.go.  The auto-vivification branch tests
`errors.Is(err, errNotFound)` on the error coming back from
`FindNodeByJSONPointer`, but that error has been re-created via
`fmt.Errorf("%s: %s", ...)` (a `PErr.msg` here), so the test can never
succeed; the branch is nevertheless embedded faithfully. -/
def jsonPatchAdd (n : Node) (jp : List JPToken) (newValue : Node) : Except PErr Node :=
  let pc := jpPop jp
  let parent := pc.1
  let child := pc.2
  match n.findByPointerStr (jpString parent) with
  | Except.error e =>
    if e = PErr.notFound then
      match ensureJSONPointerParent n jp with
      | Except.error e2 => Except.error e2
      | Except.ok n2 =>
        match n2.findByPointerStr (jpString parent) with
        | Except.error e3 => Except.error e3
        | Except.ok _ =>
          modifyAtPointer n2 parent (jsonPatchAddAt child (jpString parent) n2.file newValue)
    else Except.error e
  | Except.ok _ =>
    modifyAtPointer n parent (jsonPatchAddAt child (jpString parent) n.file newValue)

/-- The operation `jsonPatchRemove` performs at the resolved parent. -/
def jsonPatchRemoveAt (child : JPToken) (jpStr parentStr : String) (target : Node) :
    Except PErr Node :=
  if child.isIndex ∧ ¬child.isLastIndex ∧ target.kind = .sequence then
    if child.index ≥ (target.content.length : Int) then
      Except.error (PErr.msg ("can not remove a value at index " ++ toString child.index ++
        "(path: " ++ parentStr ++ ", size: " ++ toString target.content.length ++ ")"))
    else
      Except.ok (target.withContent (target.content.eraseIdx child.index.toNat))
  else if target.kind = .mapping then
    let r := target.delete child.str
    if r.2.isSome then Except.ok r.1
    else Except.error (PErr.msg ("can not remove a value " ++ jpStr ++
      "(value does not exist)"))
  else
    Except.error (PErr.msg ("can not perform a remove operation on (an) " ++
      target.kindString ++ " node(path: " ++ parentStr ++ ")"))

/-- `jsonPatchRemove` from load.go. -/
def jsonPatchRemove (n : Node) (jp : List JPToken) : Except PErr Node :=
  let pc := jpPop jp
  let parent := pc.1
  let child := pc.2
  match n.findByPointerStr (jpString parent) with
  | Except.error e => Except.error e
  | Except.ok _ =>
    modifyAtPointer n parent (jsonPatchRemoveAt child (jpString jp) (jpString parent))

/-- The `replace` arm of `processPatchNode` from load.go: remove ignoring
its error, then add; an `errNotFound` from the add would be swallowed
(`!errors.Is(err, errNotFound)`), though the add never produces that
sentinel unwrapped. -/
def jsonPatchReplace (n : Node) (jp : List JPToken) (newValue : Node) : Except PErr Node :=
  let n1 := match jsonPatchRemove n jp with
    | Except.ok m => m
    | Except.error _ => n
  match jsonPatchAdd n1 jp newValue with
  | Except.error e => if e = PErr.notFound then Except.ok n1 else Except.error e
  | Except.ok m => Except.ok m

/-! ## Variable expander (util.go) -/

/-- The wrapped-error categories produced by the variable machinery
(`ErrVarNotFound`, `ErrDirective`, `ErrYAML`); `errors.Is` tests the
category, the payload is the formatted message. -/
inductive VErr where
  | varNotFound (msg : String)
  | directive (msg : String)
  | yaml (msg : String)
deriving DecidableEq, Repr

/-- `errors.Is(err, ErrVarNotFound)`. -/
def VErr.isVarNotFound : VErr → Bool
  | .varNotFound _ => true
  | _ => false

/-- `VarResolver` from util.go. -/
abbrev VarResolver := String → Except VErr String

/-- `envVarResolver` from util.go, with the process environment abstracted
as a lookup function (`os.LookupEnv`: a set empty variable is still found). -/
def envVarResolver (env : String → Option String) : VarResolver := fun key =>
  match env key with
  | some ev => Except.ok ev
  | none => Except.error (VErr.varNotFound (key ++ " not found"))

/-- `newDirectiveVarResolver` from util.go. -/
def newDirectiveVarResolver (vars : Option Node) : VarResolver := fun key =>
  match vars with
  | some vs =>
    if vs.kind = .mapping then
      match vs.get key with
      | some v =>
        if v.kind ≠ .scalar then
          Except.error (VErr.directive ("variable " ++ key ++ " must be a scalar node"))
        else Except.ok v.value
      | none => Except.error (VErr.varNotFound (key ++ " not found"))
    else Except.error (VErr.varNotFound (key ++ " not found"))
  | none => Except.error (VErr.varNotFound (key ++ " not found"))

/-- The loop of `newCompositeVarResolver`: first resolver not reporting
`ErrVarNotFound` wins (success or a different error alike). -/
def compositeResolve : List VarResolver → String → Except VErr String
  | [], key => Except.error (VErr.varNotFound (key ++ " not found"))
  | r :: rest, key =>
    match r key with
    | Except.error e =>
      if e.isVarNotFound then compositeResolve rest key else Except.error e
    | Except.ok v => Except.ok v

/-- `newCompositeVarResolver` from util.go. -/
def newCompositeVarResolver (rs : List VarResolver) : VarResolver := fun key =>
  compositeResolve rs key

/-- The resolver chain `Load` wires up when no custom resolver is given:
environment first, then the accumulated directive variables. -/
def defaultVarChain (env : String → Option String) (vars : Option Node) : VarResolver :=
  newCompositeVarResolver [envVarResolver env, newDirectiveVarResolver vars]

/-- `isVarName` from util.go: the position argument is the index within the
whole scalar (never 0 at a use site, since names start after `$\x7b`). -/
def isVarName (c : Char) (i : Nat) : Bool :=
  if ('a' ≤ c ∧ c ≤ 'z') ∨ ('A' ≤ c ∧ c ≤ 'Z') then true
  else if i ≠ 0 then ('0' ≤ c ∧ c ≤ '9') ∨ c = '_' ∨ c = '-'
  else false

/-- The `vvv` record from util.go: half-open char range of the reference in
the scalar, variable name, default text and inferred tag. -/
structure VVV where
  vstart : Nat
  vend : Nat
  name : String
  defv : String
  tag : String
deriving DecidableEq, Repr

/-- `parseVarString` from util.go, on the chars following the opening
quote: returns the unescaped content and the number of characters consumed
including the closing quote, or `none` if the quote is never closed. -/
def parseVarString (q : Char) : List Char → Option (List Char × Nat)
  | [] => none
  | [c] => if c = q then some ([], 1) else none
  | c :: c2 :: rest =>
    if c = '\\' then
      if c2 = q then (parseVarString q rest).map (fun r => (q :: r.1, r.2 + 2))
      else if c2 = '\\' then (parseVarString q rest).map (fun r => ('\\' :: r.1, r.2 + 2))
      else (parseVarString q (c2 :: rest)).map (fun r => (c :: r.1, r.2 + 1))
    else if c = q then some ([], 1)
    else (parseVarString q (c2 :: rest)).map (fun r => (c :: r.1, r.2 + 1))

def lbrace : Char := Char.ofNat 123

def rbrace : Char := Char.ofNat 125

/-- The name scan of lexer state 2 (`for ; j < len(v) && isVarName(v[j], j); j++`):
returns the name characters and the index one past them. -/
def scanNameChars : List Char → Nat → List Char × Nat
  | [], j => ([], j)
  | c :: cs, j =>
    if isVarName c j then
      let r := scanNameChars cs (j + 1)
      (c :: r.1, r.2)
    else ([], j)

theorem scanNameChars_length_le (l : List Char) (j : Nat) :
    (scanNameChars l j).1.length ≤ l.length := by
  induction l generalizing j with
  | nil => simp [scanNameChars]
  | cons c cs ih =>
    simp only [scanNameChars]
    split
    · simpa using ih (j + 1)
    · simp

/-- The unquoted-default scan of lexer state 4
(`for ; j < len(v) && v[j] != rbrace; j++`): the characters before the
closing brace and whether one was found. -/
def scanToRBrace : List Char → List Char × Bool
  | [] => ([], false)
  | c :: cs =>
    if c = rbrace then ([], true)
    else
      let r := scanToRBrace cs
      (c :: r.1, r.2)

def isDigitChar (c : Char) : Bool := '0' ≤ c ∧ c ≤ '9'

/-- Model of `strconv.ParseFloat` syntax acceptance: optional sign, decimal
mantissa (digits, optionally with a fraction part), optional decimal
exponent.  Hexadecimal floats, `inf`/`nan` spellings and underscore digit
separators are not modelled; no string this development evaluates uses
them. -/
def goParseFloatOk (s : String) : Bool :=
  let cs := s.toList
  let cs := match cs with
    | c :: r => if c = '+' ∨ c = '-' then r else c :: r
    | [] => []
  let ip := cs.takeWhile isDigitChar
  let rest1 := cs.dropWhile isDigitChar
  let mant : Bool × List Char :=
    match rest1 with
    | '.' :: r2 => (decide (ip ≠ [] ∨ r2.takeWhile isDigitChar ≠ []), r2.dropWhile isDigitChar)
    | _ => (decide (ip ≠ []), rest1)
  mant.1 && (match mant.2 with
    | [] => true
    | e :: r3 =>
      if e = 'e' ∨ e = 'E' then
        let r4 := match r3 with
          | c :: r => if c = '+' ∨ c = '-' then r else c :: r
          | [] => []
        decide (r4 ≠ []) && r4.all isDigitChar
      else false)

/-- `guessScalarNodeTag` from util.go. -/
def guessScalarNodeTag (s : String) : String :=
  if s = "null" then "null"
  else if s = "true" ∨ s = "false" ∨ s = "yes" ∨ s = "no" ∨ s = "on" ∨ s = "off" then "bool"
  else if (goAtoi s).isSome then "int"
  else if goParseFloatOk s then "float"
  else "str"

/-- The lexer loop of `expandVar` from util.go, as a recursion over the
remaining characters carrying the absolute position, the state (0 initial,
1 just past `$`, 2 name, 3 after name, 4 default), `varStarts` and the
scanned name.  References are emitted in scan order. -/
def scanVarsFrom (suffix : List Char) (pos state varStarts : Nat) (varName : List Char) :
    List VVV :=
  match state, suffix with
  | _, [] => []
  | 0, c :: rest =>
    if c = '$' then
      match rest with
      | [] => []
      | c2 :: rest2 =>
        if c2 = '$' then scanVarsFrom rest2 (pos + 2) 0 varStarts varName
        else if c2 = lbrace then scanVarsFrom (c2 :: rest2) (pos + 1) 1 pos varName
        else scanVarsFrom (c2 :: rest2) (pos + 1) 0 varStarts varName
    else scanVarsFrom rest (pos + 1) 0 varStarts varName
  | 1, _ :: rest => scanVarsFrom rest (pos + 1) 2 varStarts varName
  | 2, cs =>
    match hnm : scanNameChars cs pos with
    | ([], _) => scanVarsFrom cs pos 0 varStarts varName
    | (c0 :: nm, _) =>
      scanVarsFrom (cs.drop (c0 :: nm).length) (pos + (c0 :: nm).length) 3 varStarts (c0 :: nm)
  | 3, c :: rest =>
    if c = ':' then scanVarsFrom rest (pos + 1) 4 varStarts varName
    else if c = rbrace then
      ⟨varStarts, pos + 1, String.mk varName, "", "str"⟩ ::
        scanVarsFrom rest (pos + 1) 0 varStarts varName
    else scanVarsFrom rest (pos + 1) 3 varStarts varName
  | 4, c :: rest =>
    if c = '"' then
      match parseVarString '"' rest with
      | none => scanVarsFrom rest (pos + 1) 0 varStarts varName
      | some vr =>
        match h : rest.drop vr.2 with
        | [] => scanVarsFrom rest (pos + 1) 0 varStarts varName
        | r0 :: rem =>
          if r0 = rbrace then
            ⟨varStarts, pos + 1 + vr.2 + 1, String.mk varName, String.mk vr.1, "str"⟩ ::
              scanVarsFrom (r0 :: rem) (pos + 1 + vr.2) 0 varStarts varName
          else scanVarsFrom (r0 :: rem) (pos + 1 + vr.2) 0 varStarts varName
    else if c = rbrace then
      ⟨varStarts, pos + 1, String.mk varName, "", guessScalarNodeTag ""⟩ ::
        scanVarsFrom (c :: rest) pos 0 varStarts varName
    else
      let r := scanToRBrace rest
      if r.2 then
        ⟨varStarts, pos + 1 + r.1.length + 1, String.mk varName, String.mk (c :: r.1),
            guessScalarNodeTag (String.mk (c :: r.1))⟩ ::
          scanVarsFrom (rest.drop r.1.length) (pos + 1 + r.1.length) 0 varStarts varName
      else scanVarsFrom rest (pos + 1) 0 varStarts varName
  | _ + 5, _ :: _ => []
termination_by suffix.length * 5 + state
decreasing_by
  all_goals simp_wf
  all_goals try omega
  all_goals try (have hl := congrArg List.length h; simp at hl; omega)
  all_goals (have hn := scanNameChars_length_le cs pos; rw [hnm] at hn; simp at hn; omega)

/-- Go `\s` (RE2): space, tab, newline, form feed, carriage return. -/
def hasSpaceChar (s : String) : Bool :=
  s.toList.any (fun c => c = ' ' ∨ c = '\t' ∨ c = '\n' ∨ c = '\x0c' ∨ c = '\r')

/-- `shouldQuote` from util.go. -/
def shouldQuote (s : String) : Bool :=
  s.toList.contains rbrace || s.toList.contains '"' ||
    guessScalarNodeTag s ≠ "str" || hasSpaceChar s

/-- The character-wise effect of `quote`'s two `strings.ReplaceAll` passes
(escape backslashes first, then double quotes). -/
def quoteChar (c : Char) : List Char :=
  if c = '\\' then ['\\', '\\'] else if c = '"' then ['\\', '"'] else [c]

/-- `quote` from util.go. -/
def quote (s : String) : String :=
  "\"" ++ String.mk (s.toList.flatMap quoteChar) ++ "\""

/-- Go slice `v[a:b]` at char positions. -/
def strSlice (v : String) (a b : Nat) : String :=
  String.mk ((v.toList.drop a).take (b - a))

/-- Go slice `v[a:]` at char positions. -/
def strFrom (v : String) (a : Nat) : String :=
  String.mk (v.toList.drop a)

/-- The literal text `$\x7b`. -/
def dolLbr : String := "$\x7b"

/-- The literal text `\x7d`. -/
def rbr : String := "\x7d"

/-- The re-assembly loop of `expandVar` from util.go: walk the scanned
references left to right, copying the text between them, resolving each and
rendering either the substitution (default mode) or the rewritten reference
(keep-expression mode).  `nvars` is the total number of scanned references
(Go tests `len(vars) == 1` inside the loop). -/
def substVars (v : String) (resolv : VarResolver) (keeps : Bool) (nvars : Nat) :
    List VVV → Nat → String → Except VErr String
  | [], offset, ret => Except.ok (ret ++ strFrom v offset)
  | vv :: rest, offset, ret =>
    let ret1 := ret ++ strSlice v offset vv.vstart
    let cont := fun (resolved : String) =>
      let isSingle := nvars = 1 ∧ vv.vend = v.length ∧ vv.vstart = 0
      let piece :=
        if ¬keeps then
          if resolved.length = 0 ∧ isSingle then "\"\""
          else if vv.tag = "str" ∧ isSingle ∧ shouldQuote resolved then quote resolved
          else resolved
        else
          if resolved.length = 0 then dolLbr ++ vv.name ++ rbr
          else if vv.tag = "str" ∧ shouldQuote resolved then
            dolLbr ++ vv.name ++ ":" ++ quote resolved ++ rbr
          else dolLbr ++ vv.name ++ ":" ++ resolved ++ rbr
      substVars v resolv keeps nvars rest vv.vend (ret1 ++ piece)
    match resolv vv.name with
    | Except.ok s => cont s
    | Except.error e =>
      if e.isVarNotFound then
        if vv.defv.length = 0 ∧ ¬keeps then Except.error e else cont vv.defv
      else Except.error e

/-- The scanned references of a scalar (phase one of `expandVar`). -/
def scanVars (v : String) : List VVV :=
  scanVarsFrom v.toList 0 0 0 []

/-- `expandVar` from util.go: scan, then re-assemble; a scalar with no
references is returned unchanged. -/
def expandVar (v : String) (resolv : VarResolver) (keepsVariables : Bool) :
    Except VErr String :=
  let vars := scanVars v
  if vars.length = 0 then Except.ok v
  else substVars v resolv keepsVariables vars.length vars 0 ""

/-- Modelled from the spec: `processVars` re-parses the substituted text
through the external YAML library (`yaml.Unmarshal`, an out-of-scope
collaborator) "as a single scalar node so that e.g. a numeric-looking
substitution becomes a numeric-typed node, not a string".  The model covers
the scalar shapes this development evaluates: a double-quoted scalar is
unescaped to a `!!str` node, a plain scalar keeps its text and receives the
tag matching its inferred type. -/
def reparseScalar (s : String) : Option (String × String) :=
  match s.toList with
  | '"' :: rest =>
    match parseVarString '"' rest with
    | some r => if r.2 = rest.length then some (String.mk r.1, "!!str") else none
    | none => none
  | _ => some (s, "!!" ++ guessScalarNodeTag s)

mutual

/-- `processVars` from load.go: walk the tree; on every `!!str` scalar run
`expandVar`, and when the text changed re-parse it as a single scalar
(`reparseScalar` models the external `yaml.Unmarshal`; `SetString`
followed by the tag assignment keeps every other field). -/
def processVars (n : Node) (resolver : VarResolver) (keeps : Bool) : Except VErr Node :=
  match n.kind with
  | .mapping => (processVarsPairs n.content resolver keeps).map n.withContent
  | .sequence => (processVarsList n.content resolver keeps).map n.withContent
  | .scalar =>
    if n.tag = "!!str" then
      match expandVar n.value resolver keeps with
      | Except.error e => Except.error e
      | Except.ok ns =>
        if n.value ≠ ns then
          match reparseScalar ns with
          | some r => Except.ok (Node.mk .scalar r.1 r.2 n.file n.line n.content)
          | none => Except.error (VErr.yaml (n.file ++ "(line:" ++ toString n.line ++
              "): failed to parse a variable"))
        else Except.ok n
    else Except.ok n
  | _ => Except.ok n
termination_by sizeOf n

/-- The `ForEachMap` walk of `processVars`: values are processed, key nodes
are not. -/
def processVarsPairs (l : List Node) (resolver : VarResolver) (keeps : Bool) :
    Except VErr (List Node) :=
  match l with
  | k :: v :: rest =>
    match processVars v resolver keeps with
    | Except.error e => Except.error e
    | Except.ok v2 => (processVarsPairs rest resolver keeps).map (fun r2 => k :: v2 :: r2)
  | other => Except.ok other
termination_by sizeOf l

/-- The `ForEachSeq` walk of `processVars`. -/
def processVarsList (l : List Node) (resolver : VarResolver) (keeps : Bool) :
    Except VErr (List Node) :=
  match l with
  | v :: rest =>
    match processVars v resolver keeps with
    | Except.error e => Except.error e
    | Except.ok v2 => (processVarsList rest resolver keeps).map (fun r2 => v2 :: r2)
  | [] => Except.ok []
termination_by sizeOf l

end

/-! ## Claim C9: the root pointer `/` -/

/-- C9: for every tree, resolving the JSON Pointer `/` returns the whole
tree itself and never fails; the parsed empty token is bypassed by the
explicit `path == "/"` check, so `/` is not a lookup of the empty-string
key (even a mapping owning an empty-string key yields the root, not that
key's value). -/
theorem findByPointerStr_root (n : Node) : n.findByPointerStr "/" = Except.ok n := by
  simp [Node.findByPointerStr, parseJSONPointer]

/-! ## Claim C10: a set environment variable always wins -/

/-- C10: whenever the environment defines a variable — even as the empty
string — the default resolver chain (`envVarResolver` then
`newDirectiveVarResolver`) returns the environment value as found and never
falls through to directive variables (and hence never to a reference's own
default, which `expandVar` consults only on a not-found error). -/
theorem defaultVarChain_env_wins (env : String → Option String) (vars : Option Node)
    (key val : String) (h : env key = some val) :
    defaultVarChain env vars key = Except.ok val := by
  simp [defaultVarChain, newCompositeVarResolver, compositeResolve, envVarResolver, h]

def demoVars : Node :=
  Node.mk .mapping "" "" "f" 1 [newStringNode "X" "f", newStringNode "zzz" "f"]

/-- Witness for C10: `X` set to the empty string in the environment wins
over a directive variable `X: zzz` and over the reference default `dd`
(the whole-scalar empty substitution renders as the literal `""`). -/
theorem defaultVarChain_env_wins_witness :
    defaultVarChain (fun _ => some "") (some demoVars) "X" = Except.ok "" ∧
    expandVar "$\x7bX:dd\x7d" (defaultVarChain (fun _ => some "") (some demoVars)) false =
      Except.ok "\"\"" := by
  refine ⟨defaultVarChain_env_wins (fun _ => some "") (some demoVars) "X" "" rfl, ?_⟩
  simp [expandVar, scanVars, scanVarsFrom, scanNameChars, scanToRBrace, isVarName, lbrace,
    rbrace, guessScalarNodeTag, goAtoi, goParseFloatOk, digitsToNat, isDigitChar, substVars,
    defaultVarChain, newCompositeVarResolver, compositeResolve, envVarResolver,
    VErr.isVarNotFound, strSlice, strFrom, shouldQuote, hasSpaceChar, quote, quoteChar,
    dolLbr, rbr, String.length]

/-! ## Claim C2: `add` with an index final token on a Sequence -/

def arrKey : Node := newStringNode "arr" "f"

/-- A root mapping `\x7barr: <elems>\x7d`, the shape of the spec scenario. -/
def mkArrRoot (elems : List Node) : Node :=
  Node.mk .mapping "" "" "f" 1 [arrKey, Node.mk .sequence "" "" "f" 2 elems]

/-- The token `arr` as `parseJSONPointer` produces it. -/
def tArr : JPToken := { str := "arr", isIndex := false, index := 0, original := "arr" }

@[simp] theorem toString_intCast_nat (k : Nat) : toString (k : Int) = toString k := rfl

@[simp] theorem string_toList_append (a b : String) :
    (a ++ b).toList = a.toList ++ b.toList := rfl

theorem string_eq_of_toList {a b : String} (h : a.toList = b.toList) : a = b := by
  cases a with
  | mk d1 =>
    cases b with
    | mk d2 => exact congrArg String.mk h

/-- The index token `k` as `parseJSONPointer` produces it. -/
def tIdx (k : Nat) : JPToken :=
  { str := toString k, isIndex := true, index := (k : Int), original := toString k }

/-- The append token `-` as `parseJSONPointer` produces it. -/
def tDash : JPToken := { str := "-", isIndex := true, index := -1, original := "-" }

theorem c2_eval (elems : List Node) (t : JPToken) (v : Node) (ht : t.isIndex = true) :
    jsonPatchAdd (mkArrRoot elems) [tArr, t] v =
      (if t.index < 0 then
        Except.ok (mkArrRoot (elems ++ [v]))
      else if t.index > (elems.length : Int) then
        Except.error (PErr.msg ("can not perform an add value before index " ++
          toString t.index ++ "(path: " ++ "/arr" ++ ", size: " ++
          toString elems.length ++ ")"))
      else Except.ok (mkArrRoot (elems.take t.index.toNat ++ v :: elems.drop t.index.toNat))) := by
  simp [jsonPatchAdd, jpPop, jpString, joinSlash, Node.findByPointerStr, parseJSONPointer,
    splitOnSlash, parseJPToken, unescapeJPToken, replacePair, goAtoi, digitsToNat,
    findNodeByJSONPointerAux, Node.get, getAux, Node.kind, Node.value, Node.content,
    mkArrRoot, arrKey, tArr, newStringNode, modifyAtPointer, modifyAux, setMapValue,
    jsonPatchAddAt, ht, Node.withContent, Node.file]
  split
  · rfl
  · split
    · rfl
    · rfl

/-- C2: an `add` whose final token is an index, applied against a Sequence
of length `n`: the `-` token and the index `n` itself append after the last
element; an index `0 ≤ k ≤ n-1` (here: `k ≤ n` covers insertion generally,
with `k = n` the append) inserts before position `k`; an index `k > n`
fails with the out-of-range error naming the index and the size, leaving no
modified tree behind. -/
theorem jsonPatchAdd_seq_index (elems : List Node) (k : Nat) (v : Node) :
    (jsonPatchAdd (mkArrRoot elems) [tArr, tDash] v = Except.ok (mkArrRoot (elems ++ [v])))
    ∧ (k = elems.length →
        jsonPatchAdd (mkArrRoot elems) [tArr, tIdx k] v = Except.ok (mkArrRoot (elems ++ [v])))
    ∧ (k < elems.length →
        jsonPatchAdd (mkArrRoot elems) [tArr, tIdx k] v =
          Except.ok (mkArrRoot (elems.take k ++ v :: elems.drop k)))
    ∧ (k > elems.length →
        jsonPatchAdd (mkArrRoot elems) [tArr, tIdx k] v =
          Except.error (PErr.msg ("can not perform an add value before index " ++
            toString k ++ "(path: /arr, size: " ++ toString elems.length ++ ")"))) := by
  refine ⟨?_, ?_, ?_, ?_⟩
  · rw [c2_eval elems tDash v rfl]
    simp [tDash]
  · intro hk
    rw [c2_eval elems (tIdx k) v rfl]
    subst hk
    simp [tIdx]
  · intro hk
    rw [c2_eval elems (tIdx k) v rfl]
    have h0 : ¬((k : Int) < 0) := by omega
    have h1 : ¬((k : Int) > (elems.length : Int)) := by omega
    simp [tIdx, h0, h1]
  · intro hk
    rw [c2_eval elems (tIdx k) v rfl]
    have h0 : ¬((k : Int) < 0) := by omega
    have h1 : (k : Int) > (elems.length : Int) := by omega
    simp only [tIdx, h0, h1, if_true, if_false, ite_true, ite_false, if_neg, if_pos]
    norm_num
    apply string_eq_of_toList
    simp

/-- Witness for C2, the spec scenario: `add` at `/arr/10` (as parsed from
the pointer string) against a 3-element sequence fails naming index 10 and
size 3. -/
theorem jsonPatchAdd_seq_index_witness :
    parseJSONPointer "/arr/10" = some [tArr, tIdx 10] ∧
    jsonPatchAdd (mkArrRoot [newStringNode "x" "f", newStringNode "y" "f",
        newStringNode "z" "f"]) [tArr, tIdx 10] (newStringNode "V" "p") =
      Except.error (PErr.msg
        "can not perform an add value before index 10(path: /arr, size: 3)") := by
  constructor
  · simp only [parseJSONPointer, splitOnSlash, parseJPToken, unescapeJPToken, replacePair,
      goAtoi, digitsToNat, tArr, tIdx]
    rfl
  · have h := (jsonPatchAdd_seq_index [newStringNode "x" "f", newStringNode "y" "f",
      newStringNode "z" "f"] 10 (newStringNode "V" "p")).2.2.2 (by simp)
    simpa using h

/-! ## Claim C1: auto-creation of missing parents on `add`

`jsonPatchAdd` guards the `ensureJSONPointerParent` call with
`errors.Is(err, errNotFound)`, but `FindNodeByJSONPointer` has re-created
the failure as a fresh flat error (`fmt.Errorf("%s: %s", ...)`, no `%w`), so
the guard never fires and an `add` whose parent path is missing fails
instead of vivifying.  The theorems below evaluate the failing input and
show that the (dead) vivification machinery itself would have produced the
claimed result. -/

def c1root : Node := Node.mk .mapping "" "" "root.yml" 1 []

def c1tok (s : String) : JPToken := { str := s, isIndex := false, index := 0, original := s }

def c1val : Node := Node.mk .scalar "5" "!!int" "patch.yml" 3 []

/-- The tree `ensureJSONPointerParent` builds for `/a/b` on an empty root:
the intermediate `a` is created as a Mapping (next token is a key). -/
def c1fixed : Node :=
  Node.mk .mapping "" "" "root.yml" 1
    [newStringNode "a" "root.yml", newMappingNode "root.yml"]

/-- The tree the claim expects after `add /a/b`. -/
def c1done : Node :=
  Node.mk .mapping "" "" "root.yml" 1
    [newStringNode "a" "root.yml",
     Node.mk .mapping "" "" "root.yml" 0 [newStringNode "b" "root.yml", c1val]]

/-- C1 (code bug, failing input): on the empty mapping root, `add` at
`/a/b` (as parsed) fails with the wrapped not-found error instead of
auto-creating the missing parent `a`: the wrapped error is a flat message,
never the `errNotFound` sentinel the vivification branch tests for.
Meanwhile `ensureJSONPointerParent` — the code written for exactly this
case — does produce the intermediate Mapping, after which the same `add`
succeeds and the full pointer resolves to the patch value, with the sibling
structure (the rest of the root) untouched.  So the claimed behaviour is the
code's evident intent, and the `errors.Is` guard is the slip. -/
theorem jsonPatchAdd_missing_parent_bug :
    parseJSONPointer "/a/b" = some [c1tok "a", c1tok "b"]
    ∧ jsonPatchAdd c1root [c1tok "a", c1tok "b"] c1val =
        Except.error (PErr.msg "/a: can not find nodes matches path")
    ∧ ensureJSONPointerParent c1root [c1tok "a", c1tok "b"] = Except.ok c1fixed
    ∧ jsonPatchAdd c1fixed [c1tok "a", c1tok "b"] c1val = Except.ok c1done
    ∧ c1done.findByPointerStr "/a/b" = Except.ok c1val := by
  refine ⟨?_, ?_, ?_, ?_, ?_⟩
  · simp [parseJSONPointer, splitOnSlash, parseJPToken, unescapeJPToken, replacePair,
      goAtoi, c1tok]
  · simp [jsonPatchAdd, jpPop, jpString, joinSlash, Node.findByPointerStr, parseJSONPointer,
      splitOnSlash, parseJPToken, unescapeJPToken, replacePair, goAtoi,
      findNodeByJSONPointerAux, Node.get, getAux, Node.kind, Node.content, c1root, c1tok,
      PErr.message]
  · simp [ensureJSONPointerParent, ensureAux, c1root, c1tok, c1fixed, Node.get, getAux,
      Node.kind, Node.content, Node.put, putReplace, putInsert, newStringNode,
      newMappingNode, newSequenceNode, Node.file, Node.value, Node.withContent]
  · simp [jsonPatchAdd, jpPop, jpString, joinSlash, Node.findByPointerStr, parseJSONPointer,
      splitOnSlash, parseJPToken, unescapeJPToken, replacePair, goAtoi,
      findNodeByJSONPointerAux, Node.get, getAux, Node.kind, Node.content, c1fixed, c1tok,
      c1done, c1val, modifyAtPointer, modifyAux, setMapValue, jsonPatchAddAt, Node.put,
      putReplace, putInsert, newStringNode, newMappingNode, Node.file, Node.value,
      Node.withContent, Except.map]
  · simp [Node.findByPointerStr, parseJSONPointer, splitOnSlash, parseJPToken,
      unescapeJPToken, replacePair, goAtoi, findNodeByJSONPointerAux, Node.get, getAux,
      Node.kind, Node.content, c1done, c1val, newStringNode, Node.value]

/-! ## Claim C3: defaults on not-found, error when no default -/

/-- The name of the first scanned reference carrying no default (`len(vv.def)
== 0`): the reference at which the substitution loop fails when every
resolver reports not-found. -/
def firstEmptyDef : List VVV → Option String
  | [] => none
  | vv :: rest => if vv.defv = "" then some vv.name else firstEmptyDef rest

/-- The chain's behaviour when every resolver reports not-found: the
composite error naming the key. -/
def allNotFoundResolver : VarResolver := fun k =>
  Except.error (VErr.varNotFound (k ++ " not found"))

theorem substVars_allNotFound_error (r : VarResolver)
    (hr : ∀ k, r k = Except.error (VErr.varNotFound (k ++ " not found")))
    (v : String) (nvars : Nat) :
    ∀ (l : List VVV) (offset : Nat) (ret name : String),
      firstEmptyDef l = some name →
      substVars v r false nvars l offset ret =
        Except.error (VErr.varNotFound (name ++ " not found")) := by
  intro l
  induction l with
  | nil => intro offset ret name h; simp [firstEmptyDef] at h
  | cons vv rest ih =>
    intro offset ret name h
    simp only [substVars]
    rw [hr vv.name]
    simp only [VErr.isVarNotFound]
    by_cases hd : vv.defv = ""
    · simp [firstEmptyDef, hd] at h
      subst h
      simp [hd]
    · have hlen : vv.defv.length ≠ 0 := fun hz => hd (by
        cases hdv : vv.defv with
        | mk d => cases d with
          | nil => rfl
          | cons c cs => rw [hdv] at hz; simp [String.length] at hz)
      simp only [firstEmptyDef, hd, if_neg hd] at h
      simp only [hlen, false_and, if_neg, ite_false, if_false]
      exact ih _ _ name h

theorem substVars_allNotFound_ok (r : VarResolver)
    (hr : ∀ k, r k = Except.error (VErr.varNotFound (k ++ " not found")))
    (v : String) (nvars : Nat) :
    ∀ (l : List VVV) (offset : Nat) (ret : String),
      firstEmptyDef l = none →
      ∃ s, substVars v r false nvars l offset ret = Except.ok s := by
  intro l
  induction l with
  | nil => intro offset ret _; exact ⟨_, rfl⟩
  | cons vv rest ih =>
    intro offset ret h
    simp only [firstEmptyDef] at h
    by_cases hd : vv.defv = ""
    · simp [hd] at h
    · simp only [if_neg hd] at h
      simp only [substVars]
      rw [hr vv.name]
      have hlen : vv.defv.length ≠ 0 := fun hz => hd (by
        cases hdv : vv.defv with
        | mk d => cases d with
          | nil => rfl
          | cons c cs => rw [hdv] at hz; simp [String.length] at hz)
      simp only [VErr.isVarNotFound, hlen, false_and, if_neg, ite_false, if_false]
      exact ih _ _ h

/-- C3: when every resolver in the chain reports not-found, expansion
substitutes each reference's own default — concretely, the quoted default
of `$\x7bAAA:"e e e"\x7d` renders (via the whole-scalar quoting rule) as the
quoted text whose re-parse is the string `e e e` — and as soon as some
reference carries no default, the whole expansion fails with the
variable-not-found error naming that variable; with defaults on every
reference the expansion always succeeds. -/
theorem expandVar_notFound_defaults (r : VarResolver)
    (hr : ∀ k, r k = Except.error (VErr.varNotFound (k ++ " not found"))) :
    (expandVar "$\x7bAAA:\"e e e\"\x7d" r false = Except.ok "\"e e e\"")
    ∧ reparseScalar "\"e e e\"" = some ("e e e", "!!str")
    ∧ (∀ v name, firstEmptyDef (scanVars v) = some name →
        expandVar v r false = Except.error (VErr.varNotFound (name ++ " not found")))
    ∧ (∀ v, firstEmptyDef (scanVars v) = none → ∃ s, expandVar v r false = Except.ok s) := by
  refine ⟨?_, ?_, ?_, ?_⟩
  · have h1 : scanVars "$\x7bAAA:\"e e e\"\x7d" = [⟨0, 14, "AAA", "e e e", "str"⟩] := by
      simp [scanVars, scanVarsFrom, scanNameChars, scanToRBrace, isVarName, lbrace, rbrace,
        parseVarString]
    simp only [expandVar, h1]
    rw [show ([(⟨0, 14, "AAA", "e e e", "str"⟩ : VVV)].length = 1) from rfl]
    simp only [substVars]
    rw [hr "AAA"]
    simp [VErr.isVarNotFound, strSlice, strFrom, shouldQuote, hasSpaceChar, quote, quoteChar,
      guessScalarNodeTag, goAtoi, goParseFloatOk, isDigitChar, digitsToNat, rbrace,
      String.length]
  · simp [reparseScalar, parseVarString]
  · intro v name h
    have hne : scanVars v ≠ [] := by
      intro hz; rw [hz] at h; simp [firstEmptyDef] at h
    simp only [expandVar]
    rw [if_neg (by simpa [List.length_eq_zero] using hne)]
    exact substVars_allNotFound_error r hr v _ _ 0 "" name h
  · intro v h
    by_cases hz : scanVars v = []
    · exact ⟨v, by simp [expandVar, hz]⟩
    · simp only [expandVar]
      rw [if_neg (by simpa [List.length_eq_zero] using hz)]
      exact substVars_allNotFound_ok r hr v _ _ 0 "" h

/-- Witness for C3: applying the theorem with the concrete all-not-found
resolver: the quoted-default scenario and the no-default error at
`$\x7bX\x7d`. -/
theorem expandVar_notFound_defaults_witness :
    expandVar "$\x7bAAA:\"e e e\"\x7d" allNotFoundResolver false = Except.ok "\"e e e\""
    ∧ expandVar "$\x7bX\x7d" allNotFoundResolver false =
        Except.error (VErr.varNotFound "X not found") := by
  have h := expandVar_notFound_defaults allNotFoundResolver (fun _ => rfl)
  refine ⟨h.1, ?_⟩
  have h3 := h.2.2.1 "$\x7bX\x7d" "X" (by
    simp [scanVars, scanVarsFrom, scanNameChars, scanToRBrace, isVarName, lbrace, rbrace,
      firstEmptyDef])
  exact h3

/-! ## Claim C6: `$\x7bKEY:10\x7d` resolves to a numeric scalar -/

def env99 : String → Option String := fun k => if k = "KEY" then some "99" else none

def envNone : String → Option String := fun _ => none

/-- The document `\x7bvalue: "$\x7bKEY:10\x7d"\x7d` as parsed: the scalar
carries the `!!str` tag (it was written as a quoted string). -/
def c6doc : Node :=
  Node.mk .mapping "" "" "t.yml" 1
    [newStringNode "value" "t.yml", Node.mk .scalar "$\x7bKEY:10\x7d" "!!str" "t.yml" 1 []]

/-- C6: with no resolver defining `KEY`, `$\x7bKEY:10\x7d` expands to the
text `10` whose inferred type is int, and running `processVars` over the
document re-parses the substituted text so the node becomes an
integer-typed (`!!int`) scalar `10`, not a string; with `KEY=99` in the
environment the same holds with `99`. -/
theorem expandVar_numeric_default :
    expandVar "$\x7bKEY:10\x7d" (defaultVarChain envNone none) false = Except.ok "10"
    ∧ guessScalarNodeTag "10" = "int"
    ∧ processVars c6doc (defaultVarChain envNone none) false =
        Except.ok (Node.mk .mapping "" "" "t.yml" 1
          [newStringNode "value" "t.yml", Node.mk .scalar "10" "!!int" "t.yml" 1 []])
    ∧ expandVar "$\x7bKEY:10\x7d" (defaultVarChain env99 none) false = Except.ok "99"
    ∧ guessScalarNodeTag "99" = "int"
    ∧ processVars c6doc (defaultVarChain env99 none) false =
        Except.ok (Node.mk .mapping "" "" "t.yml" 1
          [newStringNode "value" "t.yml", Node.mk .scalar "99" "!!int" "t.yml" 1 []]) := by
  have hscan : scanVars "$\x7bKEY:10\x7d" = [⟨0, 9, "KEY", "10", "int"⟩] := by
    simp [scanVars, scanVarsFrom, scanNameChars, scanToRBrace, isVarName, lbrace, rbrace,
      guessScalarNodeTag, goAtoi, digitsToNat, goParseFloatOk, isDigitChar]
  have h10 : expandVar "$\x7bKEY:10\x7d" (defaultVarChain envNone none) false =
      Except.ok "10" := by
    simp only [expandVar, hscan]
    simp [substVars, defaultVarChain, newCompositeVarResolver, compositeResolve,
      envVarResolver, newDirectiveVarResolver, envNone, VErr.isVarNotFound, strSlice,
      strFrom, shouldQuote, hasSpaceChar, guessScalarNodeTag, goAtoi, digitsToNat,
      goParseFloatOk, isDigitChar, rbrace, String.length]
  have h99 : expandVar "$\x7bKEY:10\x7d" (defaultVarChain env99 none) false =
      Except.ok "99" := by
    simp only [expandVar, hscan]
    simp [substVars, defaultVarChain, newCompositeVarResolver, compositeResolve,
      envVarResolver, newDirectiveVarResolver, env99, VErr.isVarNotFound, strSlice,
      strFrom, shouldQuote, hasSpaceChar, guessScalarNodeTag, goAtoi, digitsToNat,
      goParseFloatOk, isDigitChar, rbrace, String.length]
  refine ⟨h10, by simp [guessScalarNodeTag, goAtoi, digitsToNat], ?_, h99,
    by simp [guessScalarNodeTag, goAtoi, digitsToNat], ?_⟩
  · simp only [processVars, processVarsPairs, c6doc, Node.kind, Node.content, Node.tag,
      Node.value, Node.file, Node.line, newStringNode, Node.withContent]
    rw [h10]
    simp [reparseScalar, guessScalarNodeTag, goAtoi, digitsToNat, goParseFloatOk,
      isDigitChar, Except.map]
    rfl
  · simp only [processVars, processVarsPairs, c6doc, Node.kind, Node.content, Node.tag,
      Node.value, Node.file, Node.line, newStringNode, Node.withContent]
    rw [h99]
    simp [reparseScalar, guessScalarNodeTag, goAtoi, digitsToNat, goParseFloatOk,
      isDigitChar, Except.map]
    rfl

/-! ## Claim C4: `put` ordering

The Go code decides sorted insertion by the kind of the *key* node
(`key.Kind == yaml.ScalarNode`), not by the kind of the value as the claim
states; a scalar key with a Mapping value is still sorted in, never
appended.  The counterexample exhibits this; the amended theorem proves the
actual rule. -/

/-- The keys of a Mapping's children, pairwise. -/
def pairKeys : List Node → List String
  | k :: _ :: rest => k.value :: pairKeys rest
  | _ => []

theorem getAux_none_iff (key : String) :
    ∀ l, getAux key l = none ↔ key ∉ pairKeys l
  | [] => by simp [getAux, pairKeys]
  | [k] => by simp [getAux, pairKeys]
  | k :: v :: rest => by
    simp only [getAux, pairKeys]
    by_cases h : k.value = key
    · simp [h]
    · simp [h, Ne.symm h, getAux_none_iff key rest]

theorem putReplace_none_iff (key value : Node) :
    ∀ l, putReplace key value l = none ↔ getAux key.value l = none
  | [] => by simp [putReplace, getAux]
  | [k] => by simp [putReplace, getAux]
  | k :: v :: rest => by
    simp only [putReplace, getAux]
    by_cases h : k.value = key.value
    · simp [h]
    · simp [h, Option.map_eq_none', putReplace_none_iff key value rest]

theorem putReplace_some_spec (key value : Node) :
    ∀ l l2 old, putReplace key value l = some (l2, old) →
      getAux key.value l = some old ∧ pairKeys l2 = pairKeys l ∧
      getAux key.value l2 = some value ∧
      (∀ k2, k2 ≠ key.value → getAux k2 l2 = getAux k2 l) ∧
      l2.length = l.length
  | [] => by simp [putReplace]
  | [k] => by simp [putReplace]
  | k :: v :: rest => by
    intro l2 old h
    simp only [putReplace] at h
    by_cases hk : k.value = key.value
    · rw [if_pos hk] at h
      simp only [Option.some.injEq, Prod.mk.injEq] at h
      obtain ⟨rfl, rfl⟩ := h
      refine ⟨by simp [getAux, hk], by simp [pairKeys], by simp [getAux, hk], ?_, by simp⟩
      intro k2 hk2
      have hne : ¬(key.value = k2) := fun hh => hk2 hh.symm
      simp [getAux, hk, hne]
    · rw [if_neg hk] at h
      match hrec : putReplace key value rest with
      | none => rw [hrec] at h; simp at h
      | some (l3, old3) =>
        rw [hrec] at h
        simp only [Option.map_some', Option.some.injEq, Prod.mk.injEq] at h
        obtain ⟨rfl, rfl⟩ := h
        obtain ⟨h1, h2, h3, h4, h5⟩ := putReplace_some_spec key value rest l3 old3 hrec
        refine ⟨by simp [getAux, hk, h1], by simp [pairKeys, h2], by simp [getAux, hk, h3],
          ?_, by simp [h5]⟩
        intro k2 hk2
        by_cases hq : k.value = k2
        · simp [getAux, hq]
        · simp [getAux, hq, h4 k2 hk2]

theorem putInsert_not_scalar (key value : Node) (hk : ¬key.kind = .scalar) :
    ∀ l, putInsert key value l = l ++ [key, value]
  | [] => by simp [putInsert]
  | [k] => by simp [putInsert, hk]
  | k :: v :: rest => by simp [putInsert, hk, putInsert_not_scalar key value hk rest]

/-- Insertion before the first strictly greater element: the position the
`Put` loop picks for a fresh scalar key. -/
def insertKey (x : String) : List String → List String
  | [] => [x]
  | k :: rest => if x < k then x :: k :: rest else k :: insertKey x rest

theorem putInsert_pairKeys (key value : Node) (hk : key.kind = .scalar) :
    ∀ l, l.length % 2 = 0 →
      pairKeys (putInsert key value l) = insertKey key.value (pairKeys l)
  | [] => by simp [putInsert, pairKeys, insertKey]
  | [k] => by intro h; simp at h
  | k :: v :: rest => by
    intro hev
    have hev2 : rest.length % 2 = 0 := by
      simp only [List.length_cons] at hev; omega
    simp only [putInsert, pairKeys, insertKey]
    by_cases hlt : key.value < k.value
    · simp [hk, hlt, pairKeys]
    · simp [hk, hlt, pairKeys, putInsert_pairKeys key value hk rest hev2]

theorem getAux_putInsert_self (key value : Node) :
    ∀ l, l.length % 2 = 0 → getAux key.value l = none →
      getAux key.value (putInsert key value l) = some value
  | [] => by simp [putInsert, getAux]
  | [k] => by intro h; simp at h
  | k :: v :: rest => by
    intro hev hfresh
    have hev2 : rest.length % 2 = 0 := by
      simp only [List.length_cons] at hev; omega
    simp only [getAux] at hfresh
    by_cases hkv : k.value = key.value
    · simp [hkv] at hfresh
    · rw [if_neg hkv] at hfresh
      simp only [putInsert]
      by_cases hc : key.kind = Kind.scalar ∧ key.value < k.value
      · simp [hc, getAux]
      · simp only [if_neg hc]
        simp [getAux, hkv, getAux_putInsert_self key value rest hev2 hfresh]

theorem insertKey_perm (x : String) : ∀ l, (insertKey x l).Perm (x :: l)
  | [] => by simp [insertKey]
  | k :: rest => by
    simp only [insertKey]
    by_cases h : x < k
    · simp [h]
    · rw [if_neg h]
      exact (List.Perm.cons k (insertKey_perm x rest)).trans (List.Perm.swap x k rest)

theorem insertKey_sorted (x : String) :
    ∀ l, List.Sorted (· < ·) l → x ∉ l → List.Sorted (· < ·) (insertKey x l)
  | [] => by simp [insertKey]
  | k :: rest => by
    intro hs hx
    rw [List.sorted_cons] at hs
    have hxk : x ≠ k := by simp at hx; tauto
    have hxr : x ∉ rest := by simp at hx; tauto
    simp only [insertKey]
    by_cases h : x < k
    · rw [if_pos h]
      refine List.sorted_cons.mpr ⟨?_, List.sorted_cons.mpr hs⟩
      intro b hb
      rcases List.mem_cons.mp hb with rfl | hbr
      · exact h
      · exact h.trans (hs.1 b hbr)
    · rw [if_neg h]
      have hkx : k < x := by
        rcases lt_trichotomy x k with h1 | h1 | h1
        · exact absurd h1 h
        · exact absurd h1 hxk
        · exact h1
      refine List.sorted_cons.mpr ⟨?_, insertKey_sorted x rest hs.2 hxr⟩
      intro b hb
      rcases List.mem_cons.mp ((insertKey_perm x rest).mem_iff.mp hb) with rfl | hbr
      · exact hkx
      · exact hs.1 b hbr

def c4map : Node := Node.mk .mapping "" "" "f" 1 [newStringNode "b" "f", newStringNode "1" "f"]

def c4key : Node := newStringNode "a" "p"

def c4val : Node := Node.mk .mapping "" "" "p" 2 []

/-- Counterexample to C4 as stated: putting the fresh scalar key `a` with a
*Mapping* (non-scalar) value into `\x7bb: 1\x7d` sorts the pair in at the
front; the claim's "a new key with a non-scalar value is appended at the
end" predicts the appended list, which the result is not. -/
theorem put_nonscalar_value_not_appended :
    (c4map.put c4key c4val).1.content =
      [c4key, c4val, newStringNode "b" "f", newStringNode "1" "f"]
    ∧ (c4map.put c4key c4val).1.content ≠ c4map.content ++ [c4key, c4val] := by
  have heval : (c4map.put c4key c4val).1.content =
      [c4key, c4val, newStringNode "b" "f", newStringNode "1" "f"] := by
    simp [c4map, c4key, c4val, Node.put, putReplace, putInsert, newStringNode, Node.kind,
      Node.content, Node.value, Node.withContent]
    decide
  refine ⟨heval, ?_⟩
  intro h
  rw [heval] at h
  simp [c4map, c4key, c4val, newStringNode, Node.content] at h

/-- C4 (amended): `put` on a Mapping with the sorted-insert rule keyed on
the *key* node's kind: an existing key has its value replaced in place (key
list unchanged, old value returned, other keys unaffected); a fresh key
whose key node is a plain scalar is inserted at the position keeping the
key list in ascending lexical order (sorted result, content a permutation
of old plus the new key, new value retrievable); a fresh key whose key node
is not a scalar is appended at the end. -/
theorem put_spec (m key value : Node) (hm : m.kind = .mapping) :
    (∀ old, getAux key.value m.content = some old →
      (m.put key value).2 = some old
      ∧ pairKeys ((m.put key value).1.content) = pairKeys m.content
      ∧ getAux key.value ((m.put key value).1.content) = some value
      ∧ (∀ k2, k2 ≠ key.value →
          getAux k2 ((m.put key value).1.content) = getAux k2 m.content))
    ∧ (getAux key.value m.content = none → key.kind = .scalar →
        m.content.length % 2 = 0 → List.Sorted (· < ·) (pairKeys m.content) →
      List.Sorted (· < ·) (pairKeys ((m.put key value).1.content))
      ∧ (pairKeys ((m.put key value).1.content)).Perm (key.value :: pairKeys m.content)
      ∧ getAux key.value ((m.put key value).1.content) = some value)
    ∧ (getAux key.value m.content = none → key.kind ≠ .scalar →
        (m.put key value).1.content = m.content ++ [key, value]) := by
  have hputr : ∀ l2 old, putReplace key value m.content = some (l2, old) →
      m.put key value = (m.withContent l2, some old) := by
    intro l2 old hr
    simp only [Node.put, hm, hr, reduceIte]
  have hputi : putReplace key value m.content = none →
      m.put key value = (m.withContent (putInsert key value m.content), none) := by
    intro hr
    simp only [Node.put, hm, hr, reduceIte]
  refine ⟨?_, ?_, ?_⟩
  · intro old hold
    match hr : putReplace key value m.content with
    | none =>
      rw [putReplace_none_iff key value m.content] at hr
      rw [hr] at hold
      cases hold
    | some (l2, old2) =>
      obtain ⟨h1, h2, h3, h4, _⟩ := putReplace_some_spec key value m.content l2 old2 hr
      have : old2 = old := by rw [hold] at h1; simpa using h1.symm
      subst this
      rw [hputr l2 old2 hr]
      exact ⟨rfl, by simpa using h2, by simpa using h3, fun k2 hk2 => by simpa using h4 k2 hk2⟩
  · intro hfresh hscalar hev hsorted
    rw [hputi ((putReplace_none_iff key value m.content).mpr hfresh)]
    have hpk := putInsert_pairKeys key value hscalar m.content hev
    have hnotmem : key.value ∉ pairKeys m.content := (getAux_none_iff _ _).mp hfresh
    refine ⟨?_, ?_, ?_⟩
    · rw [Node.content_withContent, hpk]
      exact insertKey_sorted key.value (pairKeys m.content) hsorted hnotmem
    · rw [Node.content_withContent, hpk]
      exact insertKey_perm key.value (pairKeys m.content)
    · rw [Node.content_withContent]
      exact getAux_putInsert_self key value m.content hev hfresh
  · intro hfresh hns
    rw [hputi ((putReplace_none_iff key value m.content).mpr hfresh)]
    rw [Node.content_withContent]
    exact putInsert_not_scalar key value hns m.content

/-- Witness for C4 (amended): replacing an existing key in `\x7bb: 1\x7d`
returns the old value with order unchanged, and sorted insertion of the
fresh scalar key `a`. -/
theorem put_spec_witness :
    ((c4map.put (newStringNode "b" "p") c4val).2 = some (newStringNode "1" "f")
      ∧ pairKeys ((c4map.put (newStringNode "b" "p") c4val).1.content) =
          pairKeys c4map.content)
    ∧ List.Sorted (· < ·) (pairKeys ((c4map.put c4key c4val).1.content)) := by
  constructor
  · have h := (put_spec c4map (newStringNode "b" "p") c4val rfl).1
      (newStringNode "1" "f") (by simp [c4map, newStringNode, getAux, Node.value])
    exact ⟨h.1, h.2.1⟩
  · have h := (put_spec c4map c4key c4val rfl).2.1
      (by simp [c4map, c4key, newStringNode, getAux, Node.value])
      (by simp [c4key, newStringNode, Node.kind]) (by simp [c4map, Node.content])
      (by simp [c4map, pairKeys, newStringNode, Node.content, Node.value])
    exact h.1

/-! ## Claim C5: `merge` on Mappings and Sequences -/

theorem getAux_putInsert_other (key value : Node) (k2 : String) (hk2 : k2 ≠ key.value) :
    ∀ l, l.length % 2 = 0 → getAux k2 (putInsert key value l) = getAux k2 l
  | [] => by simp [putInsert, getAux, Ne.symm hk2]
  | [k] => by intro h; simp at h
  | k :: v :: rest => by
    intro hev
    have hev2 : rest.length % 2 = 0 := by
      simp only [List.length_cons] at hev; omega
    simp only [putInsert]
    by_cases hc : key.kind = Kind.scalar ∧ key.value < k.value
    · simp [hc, getAux, Ne.symm hk2]
    · simp only [if_neg hc]
      simp [getAux, getAux_putInsert_other key value k2 hk2 rest hev2]

theorem putInsert_length (key value : Node) :
    ∀ l, (putInsert key value l).length = l.length + 2
  | [] => by simp [putInsert]
  | [k] => by
    simp only [putInsert]
    by_cases hc : key.kind = Kind.scalar ∧ key.value < k.value
    · rw [if_pos hc]; rfl
    · rw [if_neg hc]; rfl
  | k :: v :: rest => by
    simp only [putInsert]
    by_cases hc : key.kind = Kind.scalar ∧ key.value < k.value
    · rw [if_pos hc]; rfl
    · rw [if_neg hc]
      simp [putInsert_length key value rest]

/-- Evaluation of `put` in the existing-key case. -/
theorem put_eval_replace (n key value : Node) (hm : n.kind = .mapping)
    {l2 : List Node} {old : Node} (hr : putReplace key value n.content = some (l2, old)) :
    n.put key value = (n.withContent l2, some old) := by
  simp only [Node.put, hm, hr, reduceIte]

/-- Evaluation of `put` in the fresh-key case. -/
theorem put_eval_insert (n key value : Node) (hm : n.kind = .mapping)
    (hr : putReplace key value n.content = none) :
    n.put key value = (n.withContent (putInsert key value n.content), none) := by
  simp only [Node.put, hm, hr, reduceIte]

theorem put_eval_nonmap (n key value : Node) (hm : ¬n.kind = .mapping) :
    n.put key value = (n, none) := by
  simp only [Node.put, hm, reduceIte]

theorem put_kind (n key value : Node) : (n.put key value).1.kind = n.kind := by
  by_cases hm : n.kind = Kind.mapping
  · match hr : putReplace key value n.content with
    | some (l2, old) => rw [put_eval_replace n key value hm hr]; simp [hm]
    | none => rw [put_eval_insert n key value hm hr]; simp [hm]
  · rw [put_eval_nonmap n key value hm]

theorem put_content_even (n key value : Node) (hev : n.content.length % 2 = 0) :
    (n.put key value).1.content.length % 2 = 0 := by
  by_cases hm : n.kind = Kind.mapping
  · match hr : putReplace key value n.content with
    | some (l2, old) =>
      obtain ⟨_, _, _, _, h5⟩ := putReplace_some_spec key value n.content l2 old hr
      rw [put_eval_replace n key value hm hr]
      simpa [h5] using hev
    | none =>
      rw [put_eval_insert n key value hm hr]
      simp [putInsert_length]
      omega
  · rw [put_eval_nonmap n key value hm]
    exact hev

theorem getAux_put_self (n key value : Node) (hm : n.kind = .mapping)
    (hev : n.content.length % 2 = 0) :
    getAux key.value ((n.put key value).1).content = some value := by
  match hr : putReplace key value n.content with
  | some (l2, old) =>
    obtain ⟨_, _, h3, _, _⟩ := putReplace_some_spec key value n.content l2 old hr
    rw [put_eval_replace n key value hm hr]
    simpa using h3
  | none =>
    rw [put_eval_insert n key value hm hr]
    rw [putReplace_none_iff key value n.content] at hr
    simpa using getAux_putInsert_self key value n.content hev hr

theorem getAux_put_other (n key value : Node) (k2 : String) (hk2 : k2 ≠ key.value)
    (hev : n.content.length % 2 = 0) :
    getAux k2 ((n.put key value).1).content = getAux k2 n.content := by
  by_cases hm : n.kind = Kind.mapping
  · match hr : putReplace key value n.content with
    | some (l2, old) =>
      obtain ⟨_, _, _, h4, _⟩ := putReplace_some_spec key value n.content l2 old hr
      rw [put_eval_replace n key value hm hr]
      simpa using h4 k2 hk2
    | none =>
      rw [put_eval_insert n key value hm hr]
      simpa using getAux_putInsert_other key value k2 hk2 n.content hev
  · rw [put_eval_nonmap n key value hm]

theorem mergeMapPairs_getAux (k : String) :
    ∀ (l : List Node) (n : Node), n.kind = .mapping → n.content.length % 2 = 0 →
      (pairKeys l).Nodup →
      getAux k (mergeMapPairs n l).content =
        (match getAux k l with
         | none => getAux k n.content
         | some vb =>
           match getAux k n.content with
           | some va => some (va.merge vb)
           | none => some vb)
  | [] => by intro n hm hev hnd; simp [mergeMapPairs, getAux]
  | [x] => by intro n hm hev hnd; simp [mergeMapPairs, getAux]
  | k0 :: v0 :: rest => by
    intro n hm hev hnd
    have hnd2 : (pairKeys rest).Nodup := by
      simpa [pairKeys] using hnd.of_cons
    have hk0rest : k0.value ∉ pairKeys rest := by
      have := hnd
      simp [pairKeys, List.nodup_cons] at this
      exact this.1
    simp only [mergeMapPairs]
    set n2 := (match n.get k0.value with
      | some cur => (n.put k0 (cur.merge v0)).1
      | none => (n.put k0 v0).1) with hn2
    have hkind2 : n2.kind = .mapping := by
      rw [hn2]
      match n.get k0.value with
      | some cur => rw [put_kind]; exact hm
      | none => rw [put_kind]; exact hm
    have hev2 : n2.content.length % 2 = 0 := by
      rw [hn2]
      match n.get k0.value with
      | some cur => exact put_content_even n k0 (cur.merge v0) hev
      | none => exact put_content_even n k0 v0 hev
    rw [mergeMapPairs_getAux k rest n2 hkind2 hev2 hnd2]
    by_cases hk : k = k0.value
    · subst hk
      have hrest : getAux k0.value rest = none := (getAux_none_iff k0.value rest).mpr hk0rest
      rw [hrest]
      simp only [getAux, if_pos rfl]
      have hself : getAux k0.value n2.content = some (match getAux k0.value n.content with
          | some va => va.merge v0
          | none => v0) := by
        rw [hn2]
        have hget : n.get k0.value = getAux k0.value n.content := by
          simp [Node.get, hm]
        match hcur : getAux k0.value n.content with
        | some cur =>
          rw [hget, hcur]
          exact getAux_put_self n k0 (cur.merge v0) hm hev
        | none =>
          rw [hget, hcur]
          exact getAux_put_self n k0 v0 hm hev
      rw [hself]
      match getAux k0.value n.content with
      | some va => rfl
      | none => rfl
    · have hcons : getAux k (k0 :: v0 :: rest) = getAux k rest := by
        have hne : ¬(k0.value = k) := fun h => hk h.symm
        simp [getAux, hne]
      have hother : getAux k n2.content = getAux k n.content := by
        rw [hn2]
        match n.get k0.value with
        | some cur => exact getAux_put_other n k0 (cur.merge v0) k hk hev
        | none => exact getAux_put_other n k0 v0 k hk hev
      rw [hcons, hother]

/-- C5: `merge(A, B)` on Mappings keeps every key present in exactly one of
the two (with its value), recursively merges the two values of a key
present in both, and on two Sequences concatenates with A's elements first
followed by B's in B's order. -/
theorem merge_spec (a b : Node) (ha : a.kind = .mapping) (hb : b.kind = .mapping)
    (hev : a.content.length % 2 = 0) (hnd : (pairKeys b.content).Nodup) :
    (∀ k, getAux k b.content = none →
        getAux k (a.merge b).content = getAux k a.content)
    ∧ (∀ k vb, getAux k a.content = none → getAux k b.content = some vb →
        getAux k (a.merge b).content = some vb)
    ∧ (∀ k va vb, getAux k a.content = some va → getAux k b.content = some vb →
        getAux k (a.merge b).content = some (va.merge vb))
    ∧ (∀ s t : Node, s.kind = .sequence → t.kind = .sequence →
        (s.merge t).content = s.content ++ t.content) := by
  have hmm : a.merge b = mergeMapPairs a b.content := by
    simp only [Node.merge, ha, hb, ne_eq, not_true_eq_false, reduceIte]
  refine ⟨?_, ?_, ?_, ?_⟩
  · intro k hbk
    rw [hmm, mergeMapPairs_getAux k b.content a ha hev hnd, hbk]
  · intro k vb hak hbk
    rw [hmm, mergeMapPairs_getAux k b.content a ha hev hnd, hbk, hak]
  · intro k va vb hak hbk
    rw [hmm, mergeMapPairs_getAux k b.content a ha hev hnd, hbk, hak]
  · intro s t hs ht
    simp only [Node.merge, hs, ht, ne_eq, not_true_eq_false, reduceIte,
      Node.content_withContent]

/-- Witness for C5 on concrete two-key Mappings sharing the key `m` (two
Sequences underneath, concatenated) plus the Sequence conjunct itself. -/
theorem merge_spec_witness :
    getAux "onlyA" ((Node.mk .mapping "" "" "a" 1
        [newStringNode "m" "a", Node.mk .sequence "" "" "a" 1 [newStringNode "1" "a"],
         newStringNode "onlyA" "a", newStringNode "va" "a"]).merge
      (Node.mk .mapping "" "" "b" 1
        [newStringNode "m" "b", Node.mk .sequence "" "" "b" 1 [newStringNode "2" "b"],
         newStringNode "onlyB" "b", newStringNode "vb" "b"])).content =
      some (newStringNode "va" "a") := by
  have h := (merge_spec
    (Node.mk .mapping "" "" "a" 1
      [newStringNode "m" "a", Node.mk .sequence "" "" "a" 1 [newStringNode "1" "a"],
       newStringNode "onlyA" "a", newStringNode "va" "a"])
    (Node.mk .mapping "" "" "b" 1
      [newStringNode "m" "b", Node.mk .sequence "" "" "b" 1 [newStringNode "2" "b"],
       newStringNode "onlyB" "b", newStringNode "vb" "b"])
    rfl rfl (by simp [Node.content])
    (by simp [pairKeys, Node.content, newStringNode, Node.value])).1
  rw [h "onlyA" (by simp [Node.content, getAux, newStringNode, Node.value])]
  simp [Node.content, getAux, newStringNode, Node.value]

/-! ## Claim C7: keep-expression round trip

Supporting lemmas: symbolic evaluation of the lexer on a whole-scalar
reference (`$\x7bNAME\x7d`, `$\x7bNAME:default\x7d`,
`$\x7bNAME:"quoted"\x7d`). -/

/-- The name-character test at a non-zero position (every name position in
a reference is at index ≥ 2). -/
def goodNameChar (c : Char) : Bool :=
  if ('a' ≤ c ∧ c ≤ 'z') ∨ ('A' ≤ c ∧ c ≤ 'Z') then true
  else ('0' ≤ c ∧ c ≤ '9') ∨ c = '_' ∨ c = '-'

theorem isVarName_pos (c : Char) (i : Nat) (hi : i ≠ 0) :
    isVarName c i = goodNameChar c := by
  unfold isVarName goodNameChar
  by_cases ha : ('a' ≤ c ∧ c ≤ 'z') ∨ ('A' ≤ c ∧ c ≤ 'Z')
  · simp [ha]
  · simp [ha, hi]

theorem scanNameChars_exact (c0 : Char) (tail : List Char) (hc0 : goodNameChar c0 = false) :
    ∀ (name : List Char), (∀ c ∈ name, goodNameChar c = true) →
      ∀ j, j ≠ 0 → scanNameChars (name ++ c0 :: tail) j = (name, j + name.length)
  | [] => by
    intro _ j hj
    simp [scanNameChars, isVarName_pos c0 j hj, hc0]
  | c :: cs => by
    intro hname j hj
    have hc : goodNameChar c = true := hname c (by simp)
    have hcs : ∀ x ∈ cs, goodNameChar x = true := fun x hx => hname x (by simp [hx])
    have ih := scanNameChars_exact c0 tail hc0 cs hcs (j + 1) (by omega)
    simp [scanNameChars, isVarName_pos c j hj, hc, ih]
    omega

theorem scanToRBrace_exact :
    ∀ (d : List Char), rbrace ∉ d →
      ∀ rest, scanToRBrace (d ++ rbrace :: rest) = (d, true)
  | [] => by intro _ rest; simp [scanToRBrace]
  | c :: cs => by
    intro hd rest
    have hc : ¬(c = rbrace) := by simp at hd; tauto
    have hcs : rbrace ∉ cs := by simp at hd; tauto
    have ih := scanToRBrace_exact cs hcs rest
    simp [scanToRBrace, hc, ih]

theorem parseVarString_quote :
    ∀ (s : List Char) (rest : List Char),
      parseVarString '"' (s.flatMap quoteChar ++ '"' :: rest) =
        some (s, (s.flatMap quoteChar).length + 1)
  | [], rest => by
    cases rest with
    | nil => simp [parseVarString]
    | cons r rs => simp [parseVarString]
  | c :: cs, rest => by
    have hrec := parseVarString_quote cs rest
    by_cases hb : c = '\\'
    · subst hb
      have hshape : ('\\' :: cs).flatMap quoteChar ++ '"' :: rest =
          '\\' :: '\\' :: (cs.flatMap quoteChar ++ '"' :: rest) := by
        simp [quoteChar]
      rw [hshape]
      simp [parseVarString, hrec, quoteChar]
      try omega
    · by_cases hq : c = '"'
      · subst hq
        have hshape : ('"' :: cs).flatMap quoteChar ++ '"' :: rest =
            '\\' :: '"' :: (cs.flatMap quoteChar ++ '"' :: rest) := by
          simp [quoteChar]
        rw [hshape]
        simp [parseVarString, hrec, quoteChar]
        try omega
      · have hshape : (c :: cs).flatMap quoteChar ++ '"' :: rest =
            c :: (cs.flatMap quoteChar ++ '"' :: rest) := by
          simp [quoteChar, hb, hq]
        rw [hshape]
        cases hflat : cs.flatMap quoteChar ++ '"' :: rest with
        | nil => simp at hflat
        | cons f fs =>
          rw [hflat] at hrec
          simp [parseVarString, hb, hq, hrec, quoteChar]
          try omega

@[simp] theorem string_append_empty (s : String) : s ++ "" = s := by
  cases s with
  | mk d => exact congrArg String.mk (List.append_nil d)

@[simp] theorem string_empty_append (s : String) : "" ++ s = s := by
  cases s with
  | mk d => rfl

@[simp] theorem strSlice_zero_zero (v : String) : strSlice v 0 0 = "" := rfl

@[simp] theorem strFrom_length (v : String) : strFrom v v.length = "" := by
  show String.mk (v.toList.drop v.length) = ""
  rw [show v.length = v.toList.length from rfl, List.drop_length]

@[simp] theorem string_mk_toList (s : String) : String.mk s.toList = s := by
  cases s with
  | mk d => rfl

@[simp] theorem lbrace_ne_dollar : ¬(lbrace = '$') := by decide

@[simp] theorem rbrace_ne_dollar : ¬(rbrace = '$') := by decide

@[simp] theorem rbrace_ne_colon : ¬(rbrace = ':') := by decide

@[simp] theorem rbrace_ne_quote : ¬(rbrace = '"') := by decide

@[simp] theorem goodNameChar_rbrace : goodNameChar rbrace = false := by decide

@[simp] theorem goodNameChar_colon : goodNameChar ':' = false := by decide

/-- A scalar that is exactly one bare reference. -/
def bareRef (name : String) : String := dolLbr ++ name ++ rbr

/-- A scalar that is exactly one reference with an unquoted default. -/
def defRef (name d : String) : String := dolLbr ++ name ++ ":" ++ d ++ rbr

/-- A scalar that is exactly one reference with a quoted default. -/
def quotedRef (name d : String) : String := dolLbr ++ name ++ ":" ++ quote d ++ rbr

theorem bareRef_toList (name : String) :
    (bareRef name).toList = '$' :: lbrace :: (name.toList ++ [rbrace]) := by
  have h0 : (bareRef name).toList = (dolLbr.data ++ name.data) ++ rbr.data := rfl
  rw [h0, show dolLbr.data = ['$', lbrace] from by decide,
    show rbr.data = [rbrace] from by decide]
  simp

/-- Stepping through lexer states 0 and 1 at the opening `$\x7b`. -/
theorem scanVarsFrom_start (tail : List Char) (pos varStarts : Nat) (varName : List Char) :
    scanVarsFrom ('$' :: lbrace :: tail) pos 0 varStarts varName =
      scanVarsFrom tail (pos + 2) 2 pos varName := by
  rw [show scanVarsFrom ('$' :: lbrace :: tail) pos 0 varStarts varName =
    scanVarsFrom (lbrace :: tail) (pos + 1) 1 pos varName from by simp [scanVarsFrom]]
  rw [show scanVarsFrom (lbrace :: tail) (pos + 1) 1 pos varName =
    scanVarsFrom tail (pos + 1 + 1) 2 pos varName from by simp [scanVarsFrom]]

/-- Stepping through lexer state 2 when the name scan returns a non-empty
name. -/
theorem scanVarsFrom_state2 (cs : List Char) (pos varStarts : Nat) (varName : List Char)
    (c0 : Char) (nm : List Char) (snd : Nat)
    (hscan : scanNameChars cs pos = (c0 :: nm, snd)) :
    scanVarsFrom cs pos 2 varStarts varName =
      scanVarsFrom (cs.drop (nm.length + 1)) (pos + (nm.length + 1)) 3 varStarts
        (c0 :: nm) := by
  cases cs with
  | nil => simp [scanNameChars] at hscan
  | cons a as =>
    simp only [scanVarsFrom]
    split
    · rename_i snd2 heq
      rw [hscan] at heq
      simp at heq
    · rename_i c1 nm1 snd1 heq
      rw [hscan] at heq
      simp only [Prod.mk.injEq, List.cons.injEq] at heq
      obtain ⟨⟨hc, hn⟩, _⟩ := heq
      subst hc
      subst hn
      simp

theorem scanVars_bareRef (name : String) (h1 : name.toList ≠ [])
    (h2 : ∀ c ∈ name.toList, goodNameChar c = true) :
    scanVars (bareRef name) = [⟨0, name.length + 3, name, "", "str"⟩] := by
  obtain ⟨c0, nm, hnm⟩ : ∃ c0 nm, name.toList = c0 :: nm := by
    cases hh : name.toList with
    | nil => exact absurd hh h1
    | cons a b => exact ⟨a, b, rfl⟩
  have hlen : name.length = nm.length + 1 := by
    rw [show name.length = name.toList.length from rfl, hnm]
    rfl
  have hgood : ∀ c ∈ c0 :: nm, goodNameChar c = true := by
    rw [← hnm]; exact h2
  have hscan := scanNameChars_exact rbrace [] goodNameChar_rbrace (c0 :: nm) hgood 2
    (by omega)
  simp only [List.cons_append, List.length_cons] at hscan
  unfold scanVars
  rw [bareRef_toList, hnm]
  simp only [List.cons_append]
  rw [scanVarsFrom_start]
  rw [scanVarsFrom_state2 _ _ _ _ c0 nm _ hscan]
  have hdrop : (c0 :: (nm ++ [rbrace])).drop (nm.length + 1) = [rbrace] := by
    simp [List.drop_left]
  rw [hdrop]
  simp [scanVarsFrom]
  refine ⟨by omega, ?_⟩
  rw [← hnm]
  simp

theorem defRef_toList (name d : String) :
    (defRef name d).toList =
      '$' :: lbrace :: (name.toList ++ ':' :: (d.toList ++ [rbrace])) := by
  have h0 : (defRef name d).toList =
      (((dolLbr.data ++ name.data) ++ ":".data) ++ d.data) ++ rbr.data := rfl
  rw [h0, show dolLbr.data = ['$', lbrace] from by decide,
    show (":" : String).data = [':'] from by decide,
    show rbr.data = [rbrace] from by decide]
  simp

theorem scanVars_defRef (name d : String) (h1 : name.toList ≠ [])
    (h2 : ∀ c ∈ name.toList, goodNameChar c = true)
    (hd1 : d.toList ≠ []) (hd2 : rbrace ∉ d.toList) (hd3 : '"' ∉ d.toList) :
    scanVars (defRef name d) =
      [⟨0, name.length + d.length + 4, name, d, guessScalarNodeTag d⟩] := by
  obtain ⟨c0, nm, hnm⟩ : ∃ c0 nm, name.toList = c0 :: nm := by
    cases hh : name.toList with
    | nil => exact absurd hh h1
    | cons a b => exact ⟨a, b, rfl⟩
  obtain ⟨dc, dt, hdd⟩ : ∃ dc dt, d.toList = dc :: dt := by
    cases hh : d.toList with
    | nil => exact absurd hh hd1
    | cons a b => exact ⟨a, b, rfl⟩
  have hlen : name.length = nm.length + 1 := by
    rw [show name.length = name.toList.length from rfl, hnm]; rfl
  have hdlen : d.length = dt.length + 1 := by
    rw [show d.length = d.toList.length from rfl, hdd]; rfl
  have hgood : ∀ c ∈ c0 :: nm, goodNameChar c = true := by
    rw [← hnm]; exact h2
  have hscan := scanNameChars_exact ':' (d.toList ++ [rbrace]) goodNameChar_colon
    (c0 :: nm) hgood 2 (by omega)
  rw [hdd] at hscan
  simp only [List.cons_append, List.length_cons] at hscan
  have hdcq : ¬(dc = '"') := by
    intro hq; rw [hdd] at hd3; simp [hq] at hd3
  have hdcr : ¬(dc = rbrace) := by
    intro hq; rw [hdd] at hd2; simp [hq] at hd2
  have hdtr : rbrace ∉ dt := by
    rw [hdd] at hd2; simp at hd2; tauto
  have hbrace := scanToRBrace_exact dt hdtr []
  unfold scanVars
  rw [defRef_toList, hnm, hdd]
  simp only [List.cons_append]
  rw [scanVarsFrom_start]
  rw [scanVarsFrom_state2 _ _ _ _ c0 nm _ hscan]
  have hdrop : (c0 :: (nm ++ ':' :: dc :: (dt ++ [rbrace]))).drop (nm.length + 1) =
      ':' :: dc :: (dt ++ [rbrace]) := by
    rw [show c0 :: (nm ++ ':' :: dc :: (dt ++ [rbrace])) =
      (c0 :: nm) ++ ':' :: dc :: (dt ++ [rbrace]) from by simp,
      show nm.length + 1 = (c0 :: nm).length from by simp, List.drop_left]
  rw [hdrop]
  rw [show scanVarsFrom (':' :: dc :: (dt ++ [rbrace])) (2 + (nm.length + 1)) 3 0
        (c0 :: nm) =
      scanVarsFrom (dc :: (dt ++ [rbrace])) (2 + (nm.length + 1) + 1) 4 0 (c0 :: nm) from by
    simp [scanVarsFrom]]
  rw [show scanVarsFrom (dc :: (dt ++ [rbrace])) (2 + (nm.length + 1) + 1) 4 0 (c0 :: nm) =
      ⟨0, 2 + (nm.length + 1) + 1 + 1 + dt.length + 1, String.mk (c0 :: nm),
          String.mk (dc :: dt), guessScalarNodeTag (String.mk (dc :: dt))⟩ ::
        scanVarsFrom ((dt ++ [rbrace]).drop dt.length)
          (2 + (nm.length + 1) + 1 + 1 + dt.length) 0 0 (c0 :: nm) from by
    simp [scanVarsFrom, hdcq, hdcr, hbrace]]
  rw [show (dt ++ [rbrace]).drop dt.length = [rbrace] from List.drop_left dt [rbrace]]
  rw [show scanVarsFrom [rbrace] (2 + (nm.length + 1) + 1 + 1 + dt.length) 0 0 (c0 :: nm) =
      ([] : List VVV) from by simp [scanVarsFrom]]
  rw [← hnm, ← hdd]
  simp
  omega

theorem quote_toList (d : String) :
    (quote d).toList = '"' :: (d.toList.flatMap quoteChar ++ ['"']) := by
  have h0 : (quote d).toList =
      (("\"" : String).data ++ (d.toList.flatMap quoteChar)) ++ ("\"" : String).data := rfl
  rw [h0, show ("\"" : String).data = ['"'] from by decide]
  simp

theorem quotedRef_toList (name d : String) :
    (quotedRef name d).toList =
      '$' :: lbrace ::
        (name.toList ++ ':' :: '"' :: (d.toList.flatMap quoteChar ++ '"' :: [rbrace])) := by
  have h0 : (quotedRef name d).toList =
      (((dolLbr.data ++ name.data) ++ ":".data) ++ (quote d).data) ++ rbr.data := rfl
  rw [h0, show dolLbr.data = ['$', lbrace] from by decide,
    show (":" : String).data = [':'] from by decide,
    show rbr.data = [rbrace] from by decide,
    show (quote d).data = (quote d).toList from rfl, quote_toList]
  simp

/-- Stepping through lexer state 4 on a quoted default followed by the
closing brace. -/
theorem scanVarsFrom_state4_quoted (rest : List Char) (pos varStarts : Nat)
    (varName value : List Char) (n : Nat)
    (hp : parseVarString '"' rest = some (value, n))
    (rem : List Char) (hd : rest.drop n = rbrace :: rem) :
    scanVarsFrom ('"' :: rest) pos 4 varStarts varName =
      ⟨varStarts, pos + 1 + n + 1, String.mk varName, String.mk value, "str"⟩ ::
        scanVarsFrom (rbrace :: rem) (pos + 1 + n) 0 varStarts varName := by
  simp only [scanVarsFrom, hp]
  simp only [if_true]
  split
  · rename_i heq
    rw [hd] at heq
    cases heq
  · rename_i r0 rem1 heq
    rw [hd] at heq
    simp only [List.cons.injEq] at heq
    obtain ⟨hr0, hrem⟩ := heq
    subst hr0
    subst hrem
    simp

theorem scanVars_quotedRef (name d : String) (h1 : name.toList ≠ [])
    (h2 : ∀ c ∈ name.toList, goodNameChar c = true) :
    scanVars (quotedRef name d) =
      [⟨0, name.length + (d.toList.flatMap quoteChar).length + 6, name, d, "str"⟩] := by
  obtain ⟨c0, nm, hnm⟩ : ∃ c0 nm, name.toList = c0 :: nm := by
    cases hh : name.toList with
    | nil => exact absurd hh h1
    | cons a b => exact ⟨a, b, rfl⟩
  have hlen : name.length = nm.length + 1 := by
    rw [show name.length = name.toList.length from rfl, hnm]; rfl
  have hgood : ∀ c ∈ c0 :: nm, goodNameChar c = true := by
    rw [← hnm]; exact h2
  have hscan := scanNameChars_exact ':'
    ('"' :: (d.toList.flatMap quoteChar ++ '"' :: [rbrace])) goodNameChar_colon
    (c0 :: nm) hgood 2 (by omega)
  simp only [List.cons_append, List.length_cons] at hscan
  have hp := parseVarString_quote d.toList [rbrace]
  have hdrop2 : (d.toList.flatMap quoteChar ++ '"' :: [rbrace]).drop
      ((d.toList.flatMap quoteChar).length + 1) = rbrace :: [] := by
    rw [show d.toList.flatMap quoteChar ++ '"' :: [rbrace] =
      (d.toList.flatMap quoteChar ++ ['"']) ++ [rbrace] from by simp,
      show (d.toList.flatMap quoteChar).length + 1 =
        (d.toList.flatMap quoteChar ++ ['"']).length from by simp,
      List.drop_left]
  unfold scanVars
  rw [quotedRef_toList, hnm]
  simp only [List.cons_append]
  rw [scanVarsFrom_start]
  rw [scanVarsFrom_state2 _ _ _ _ c0 nm _ hscan]
  have hdrop : (c0 :: (nm ++ ':' :: '"' ::
      (d.toList.flatMap quoteChar ++ '"' :: [rbrace]))).drop (nm.length + 1) =
      ':' :: '"' :: (d.toList.flatMap quoteChar ++ '"' :: [rbrace]) := by
    simp [List.drop_left]
  rw [hdrop]
  rw [show scanVarsFrom (':' :: '"' :: (d.toList.flatMap quoteChar ++ '"' :: [rbrace]))
        (2 + (nm.length + 1)) 3 0 (c0 :: nm) =
      scanVarsFrom ('"' :: (d.toList.flatMap quoteChar ++ '"' :: [rbrace]))
        (2 + (nm.length + 1) + 1) 4 0 (c0 :: nm) from by
    simp [scanVarsFrom]]
  rw [scanVarsFrom_state4_quoted _ _ _ _ _ _ hp _ hdrop2]
  rw [show scanVarsFrom (rbrace :: [])
        (2 + (nm.length + 1) + 1 + 1 + ((d.toList.flatMap quoteChar).length + 1)) 0 0
        (c0 :: nm) = ([] : List VVV) from by simp [scanVarsFrom]]
  rw [← hnm]
  simp
  omega

/-! ## Claim C7: keep-expression mode roundtrip -/

/-- Expanding in keep-expression mode and then expanding the rewritten text
in ordinary substitution mode with the same resolver (the roundtrip the
claim compares against direct substitution). -/
def roundtripExpand (v : String) (resolv : VarResolver) : Except VErr String :=
  match expandVar v resolv true with
  | Except.error e => Except.error e
  | Except.ok s => expandVar s resolv false

/-- A resolver whose value for every key is the string `a\x7db` — a value
containing a closing brace. -/
def rKa : VarResolver := fun _ => Except.ok "a\x7db"

/-- Counterexample to C7 as stated: for the scalar `$\x7bKEY:10\x7d` (a
reference with a numeric default, hence not string-typed) and a resolver
giving `KEY` the value `a\x7db`, direct substitution yields `a\x7db`, but
keep-expression mode embeds the resolved value unquoted (the quoting guard
tests the reference's inferred tag `int`, not the value) producing
`$\x7bKEY:a\x7db\x7d`, whose re-expansion stops the default at the first
`\x7d` and yields `a\x7dbb\x7d` ≠ `a\x7db`. -/
theorem expandVar_keep_roundtrip_counterexample :
    expandVar "$\x7bKEY:10\x7d" rKa false = Except.ok "a\x7db"
    ∧ expandVar "$\x7bKEY:10\x7d" rKa true = Except.ok "$\x7bKEY:a\x7db\x7d"
    ∧ roundtripExpand "$\x7bKEY:10\x7d" rKa = Except.ok "a\x7dbb\x7d"
    ∧ roundtripExpand "$\x7bKEY:10\x7d" rKa ≠ expandVar "$\x7bKEY:10\x7d" rKa false := by
  have hscan : scanVars "$\x7bKEY:10\x7d" = [⟨0, 9, "KEY", "10", "int"⟩] := by
    simp [scanVars, scanVarsFrom, scanNameChars, scanToRBrace, isVarName, lbrace, rbrace,
      guessScalarNodeTag, goAtoi, digitsToNat, goParseFloatOk, isDigitChar]
  have hdirect : expandVar "$\x7bKEY:10\x7d" rKa false = Except.ok "a\x7db" := by
    simp only [expandVar, hscan]
    simp [substVars, rKa, strSlice, strFrom, shouldQuote, hasSpaceChar, quote, quoteChar,
      guessScalarNodeTag, goAtoi, digitsToNat, goParseFloatOk, isDigitChar, rbrace,
      String.length]
  have hkeep : expandVar "$\x7bKEY:10\x7d" rKa true = Except.ok "$\x7bKEY:a\x7db\x7d" := by
    simp only [expandVar, hscan]
    simp [substVars, rKa, strSlice, strFrom, shouldQuote, hasSpaceChar, quote, quoteChar,
      guessScalarNodeTag, goAtoi, digitsToNat, goParseFloatOk, isDigitChar, rbrace, dolLbr,
      rbr, String.length]
  have hscan2 : scanVars "$\x7bKEY:a\x7db\x7d" = [⟨0, 8, "KEY", "a", "str"⟩] := by
    simp [scanVars, scanVarsFrom, scanNameChars, scanToRBrace, isVarName, lbrace, rbrace,
      guessScalarNodeTag, goAtoi, digitsToNat, goParseFloatOk, isDigitChar]
  have hsecond : expandVar "$\x7bKEY:a\x7db\x7d" rKa false = Except.ok "a\x7dbb\x7d" := by
    simp only [expandVar, hscan2]
    simp [substVars, rKa, strSlice, strFrom, shouldQuote, hasSpaceChar, quote, quoteChar,
      guessScalarNodeTag, goAtoi, digitsToNat, goParseFloatOk, isDigitChar, rbrace,
      String.length]
  have hrt : roundtripExpand "$\x7bKEY:10\x7d" rKa = Except.ok "a\x7dbb\x7d" := by
    rw [roundtripExpand, hkeep]
    exact hsecond
  refine ⟨hdirect, hkeep, hrt, ?_⟩
  rw [hrt, hdirect]
  simp

theorem bareRef_length (name : String) : (bareRef name).length = name.length + 3 := by
  have h : (bareRef name).toList.length = name.toList.length + 3 := by
    rw [bareRef_toList]; simp
  rw [show (bareRef name).length = (bareRef name).toList.length from rfl,
    show name.length = name.toList.length from rfl]
  omega

theorem defRef_length (name d : String) :
    (defRef name d).length = name.length + d.length + 4 := by
  have h : (defRef name d).toList.length = name.toList.length + d.toList.length + 4 := by
    rw [defRef_toList]; simp; omega
  rw [show (defRef name d).length = (defRef name d).toList.length from rfl,
    show name.length = name.toList.length from rfl,
    show d.length = d.toList.length from rfl]
  omega

theorem quotedRef_length (name d : String) :
    (quotedRef name d).length =
      name.length + (d.toList.flatMap quoteChar).length + 6 := by
  have h : (quotedRef name d).toList.length =
      name.toList.length + (d.toList.flatMap quoteChar).length + 6 := by
    rw [quotedRef_toList]; simp; omega
  rw [show (quotedRef name d).length = (quotedRef name d).toList.length from rfl,
    show name.length = name.toList.length from rfl]
  omega

/-- C7 (amended): the roundtrip holds once the scalar is a single
whole-scalar bare reference `$\x7bNAME\x7d`: for every resolver, expanding
in keep-expression mode and then expanding the rewritten scalar in
substitution mode gives exactly the direct substitution — whether the
resolver succeeds with an empty value, a value needing quoting, a plain
value, or fails; the counterexample shows the original unrestricted claim
is false for references with non-string-typed defaults. -/
theorem expandVar_keep_roundtrip (name : String) (r : VarResolver)
    (h1 : name.toList ≠ []) (h2 : ∀ c ∈ name.toList, goodNameChar c = true) :
    roundtripExpand (bareRef name) r = expandVar (bareRef name) r false := by
  have hsv := scanVars_bareRef name h1 h2
  have hvlen : name.length + 3 = (bareRef name).length := (bareRef_length name).symm
  cases hr : r name with
  | error e =>
    cases he : e.isVarNotFound with
    | false =>
      have hkeep : expandVar (bareRef name) r true = Except.error e := by
        simp [expandVar, hsv, substVars, hr, he]
      have hd : expandVar (bareRef name) r false = Except.error e := by
        simp [expandVar, hsv, substVars, hr, he]
      rw [roundtripExpand, hkeep]
      show Except.error e = expandVar (bareRef name) r false
      rw [hd]
    | true =>
      have hkeep : expandVar (bareRef name) r true = Except.ok (bareRef name) := by
        rw [show (Except.ok (bareRef name) : Except VErr String) =
          Except.ok (dolLbr ++ name ++ rbr) from rfl]
        simp [expandVar, hsv, substVars, hr, he, hvlen]
      rw [roundtripExpand, hkeep]
  | ok s =>
    by_cases hz : s.length = 0
    · have hkeep : expandVar (bareRef name) r true = Except.ok (bareRef name) := by
        rw [show (Except.ok (bareRef name) : Except VErr String) =
          Except.ok (dolLbr ++ name ++ rbr) from rfl]
        simp [expandVar, hsv, substVars, hr, hz, hvlen]
      rw [roundtripExpand, hkeep]
    · by_cases hq : shouldQuote s = true
      · have hkeep : expandVar (bareRef name) r true = Except.ok (quotedRef name s) := by
          rw [show (Except.ok (quotedRef name s) : Except VErr String) =
            Except.ok (dolLbr ++ name ++ ":" ++ quote s ++ rbr) from rfl]
          simp [expandVar, hsv, substVars, hr, hz, hq, hvlen]
        have hsv2 := scanVars_quotedRef name s h1 h2
        have hv2len : name.length + (s.toList.flatMap quoteChar).length + 6 =
            (quotedRef name s).length := (quotedRef_length name s).symm
        have hv2len' : name.length + (List.map (List.length ∘ quoteChar) s.data).sum + 6 =
            (quotedRef name s).length := by
          rw [← hv2len]
          simp
        have hL : expandVar (quotedRef name s) r false = Except.ok (quote s) := by
          simp [expandVar, hsv2, substVars, hr, hz, hq, hv2len, hv2len']
        have hR : expandVar (bareRef name) r false = Except.ok (quote s) := by
          simp [expandVar, hsv, substVars, hr, hz, hq, hvlen]
        rw [roundtripExpand, hkeep]
        show expandVar (quotedRef name s) r false = expandVar (bareRef name) r false
        rw [hL, hR]
      · have hq' : shouldQuote s = false := by
          cases hqq : shouldQuote s with
          | false => rfl
          | true => exact absurd hqq hq
        have hparts := hq'
        simp [shouldQuote, hasSpaceChar] at hparts
        have hd2 : rbrace ∉ s.toList := hparts.1.1.1
        have hd3 : '"' ∉ s.toList := hparts.1.1.2
        have htag : guessScalarNodeTag s = "str" := hparts.1.2
        have hd1 : s.toList ≠ [] := by
          intro hnil
          apply hz
          rw [show s.length = s.toList.length from rfl, hnil]
          rfl
        have hkeep : expandVar (bareRef name) r true = Except.ok (defRef name s) := by
          rw [show (Except.ok (defRef name s) : Except VErr String) =
            Except.ok (dolLbr ++ name ++ ":" ++ s ++ rbr) from rfl]
          simp [expandVar, hsv, substVars, hr, hz, hq', hvlen]
        have hsv2 := scanVars_defRef name s h1 h2 hd1 hd2 hd3
        have hv2len : name.length + s.length + 4 = (defRef name s).length :=
          (defRef_length name s).symm
        have hL : expandVar (defRef name s) r false = Except.ok s := by
          simp [expandVar, hsv2, substVars, hr, hz, hq', htag, hv2len]
        have hR : expandVar (bareRef name) r false = Except.ok s := by
          simp [expandVar, hsv, substVars, hr, hz, hq', hvlen]
        rw [roundtripExpand, hkeep]
        show expandVar (defRef name s) r false = expandVar (bareRef name) r false
        rw [hL, hR]

/-- Witness: the amended roundtrip theorem at the concrete reference
`$\x7bKEY\x7d` and the brace-valued resolver. -/
theorem expandVar_keep_roundtrip_witness :
    ("KEY".toList ≠ [] ∧ ∀ c ∈ "KEY".toList, goodNameChar c = true)
    ∧ roundtripExpand (bareRef "KEY") rKa = expandVar (bareRef "KEY") rKa false :=
  ⟨⟨by decide, by decide⟩,
    expandVar_keep_roundtrip "KEY" rKa (by decide) (by decide)⟩

/-! ## Claim C8: the Mapping invariant and its preservation -/

/-- Pairwise distinctness of a key list (no two pairs of a Mapping may carry
the same key string). -/
def keysDistinct : List String → Bool
  | [] => true
  | k :: rest => !(rest.contains k) && keysDistinct rest

mutual

/-- The C8 invariant: every Mapping node in the tree has an even number of
children (alternating key and value nodes) and pairwise distinct key
strings. -/
def Node.wf (n : Node) : Bool :=
  (if n.kind = .mapping then
    decide (n.content.length % 2 = 0) && keysDistinct (pairKeys n.content)
  else true) && nodesWf n.content
termination_by sizeOf n

/-- The invariant over a list of children. -/
def nodesWf : List Node → Bool
  | [] => true
  | c :: rest => Node.wf c && nodesWf rest
termination_by l => sizeOf l

end

theorem keysDistinct_iff : ∀ l : List String, keysDistinct l = true ↔ l.Nodup
  | [] => by simp [keysDistinct]
  | k :: rest => by
    simp [keysDistinct, keysDistinct_iff rest, List.contains]

theorem nodesWf_iff : ∀ l : List Node, nodesWf l = true ↔ ∀ c ∈ l, c.wf = true
  | [] => by simp [nodesWf]
  | c :: rest => by
    simp [nodesWf, nodesWf_iff rest]

theorem nodesWf_append : ∀ a b : List Node,
    nodesWf (a ++ b) = (nodesWf a && nodesWf b)
  | [], b => by simp [nodesWf]
  | c :: rest, b => by
    simp [nodesWf, nodesWf_append rest b, Bool.and_assoc]

/-- The invariant unfolded (the well-founded equation, convenient for `rw`). -/
theorem wf_def (n : Node) : n.wf =
    ((if n.kind = .mapping then
      decide (n.content.length % 2 = 0) && keysDistinct (pairKeys n.content)
    else true) && nodesWf n.content) := by
  rw [Node.wf]

theorem wf_withContent_mapping (n : Node) (c : List Node) (hk : n.kind = .mapping)
    (hev : c.length % 2 = 0) (hd : keysDistinct (pairKeys c) = true)
    (hw : nodesWf c = true) : (n.withContent c).wf = true := by
  rw [wf_def]
  simp [Node.kind_withContent, hk, Node.content_withContent, hev, hd, hw]

theorem wf_withContent_not_mapping (n : Node) (c : List Node) (hk : ¬n.kind = .mapping)
    (hw : nodesWf c = true) : (n.withContent c).wf = true := by
  rw [wf_def]
  simp [Node.kind_withContent, hk, Node.content_withContent, hw]

theorem wf_parts (n : Node) (h : n.wf = true) :
    (n.kind = .mapping → n.content.length % 2 = 0 ∧ keysDistinct (pairKeys n.content) = true)
    ∧ nodesWf n.content = true := by
  rw [wf_def] at h
  by_cases hk : n.kind = .mapping
  · simp [hk] at h
    exact ⟨fun _ => h.1, h.2⟩
  · simp [hk] at h
    exact ⟨fun hh => absurd hh hk, h⟩

theorem getAux_mem (key : String) : ∀ l v, getAux key l = some v → v ∈ l
  | [], v => by simp [getAux]
  | [k], v => by simp [getAux]
  | k :: w :: rest, v => by
    intro h
    simp only [getAux] at h
    by_cases hk : k.value = key
    · rw [if_pos hk] at h
      simp only [Option.some.injEq] at h
      subst h
      simp
    · rw [if_neg hk] at h
      have hm := getAux_mem key rest v h
      simp [hm]

theorem putReplace_nodesWf (key value : Node) (hv : value.wf = true) :
    ∀ l l2 old, putReplace key value l = some (l2, old) → nodesWf l = true →
      nodesWf l2 = true
  | [], l2, old => by simp [putReplace]
  | [k], l2, old => by simp [putReplace]
  | k :: w :: rest, l2, old => by
    intro h hw
    simp only [putReplace] at h
    simp only [nodesWf, Bool.and_eq_true] at hw
    by_cases hk : k.value = key.value
    · rw [if_pos hk] at h
      simp only [Option.some.injEq, Prod.mk.injEq] at h
      obtain ⟨rfl, rfl⟩ := h
      simp [nodesWf, hw.1, hv, hw.2.2]
    · rw [if_neg hk] at h
      match hrec : putReplace key value rest with
      | none => rw [hrec] at h; simp at h
      | some (l3, old3) =>
        rw [hrec] at h
        simp only [Option.map_some', Option.some.injEq, Prod.mk.injEq] at h
        obtain ⟨rfl, rfl⟩ := h
        simp [nodesWf, hw.1, hw.2.1,
          putReplace_nodesWf key value hv rest l3 old3 hrec hw.2.2]

theorem putInsert_nodesWf (key value : Node) (hk : key.wf = true) (hv : value.wf = true) :
    ∀ l, nodesWf l = true → nodesWf (putInsert key value l) = true
  | [] => by
    intro h
    simp [putInsert, nodesWf, hk, hv]
  | [k] => by
    intro h
    simp only [nodesWf, Bool.and_eq_true] at h
    simp only [putInsert]
    by_cases hc : key.kind = Kind.scalar ∧ key.value < k.value
    · rw [if_pos hc]
      simp [nodesWf, hk, hv, h.1]
    · rw [if_neg hc]
      simp [nodesWf, hk, hv, h.1]
  | k :: v :: rest => by
    intro h
    simp only [nodesWf, Bool.and_eq_true] at h
    simp only [putInsert]
    by_cases hc : key.kind = Kind.scalar ∧ key.value < k.value
    · rw [if_pos hc]
      simp [nodesWf, hk, hv, h.1, h.2.1, h.2.2]
    · rw [if_neg hc]
      simp [nodesWf, h.1, h.2.1,
        putInsert_nodesWf key value hk hv rest h.2.2]

theorem pairKeys_append_pair (key value : Node) :
    ∀ l, l.length % 2 = 0 → pairKeys (l ++ [key, value]) = pairKeys l ++ [key.value]
  | [] => by simp [pairKeys]
  | [k] => by
    intro h
    simp at h
  | k :: v :: rest => by
    intro h
    simp only [List.length_cons] at h
    simp only [List.cons_append, pairKeys, List.append_eq]
    rw [pairKeys_append_pair key value rest (by omega)]

/-- `Put` preserves the Mapping invariant. -/
theorem put_wf (n key value : Node) (hn : n.wf = true) (hk : key.wf = true)
    (hv : value.wf = true) : (n.put key value).1.wf = true := by
  by_cases hm : n.kind = .mapping
  · obtain ⟨hmap, hwl⟩ := wf_parts n hn
    obtain ⟨hev, hdist⟩ := hmap hm
    simp only [Node.put, hm, if_true]
    match hrep : putReplace key value n.content with
    | some (l2, old) =>
      simp only
      obtain ⟨_, hkeys, _, _, hlen⟩ := putReplace_some_spec key value n.content l2 old hrep
      exact wf_withContent_mapping n l2 hm (by rw [hlen]; exact hev)
        (by rw [hkeys]; exact hdist)
        (putReplace_nodesWf key value hv n.content l2 old hrep hwl)
    | none =>
      simp only
      have hfresh : key.value ∉ pairKeys n.content :=
        (getAux_none_iff key.value n.content).mp
          ((putReplace_none_iff key value n.content).mp hrep)
      have hnodup : (pairKeys n.content).Nodup := (keysDistinct_iff _).mp hdist
      have hlen2 : (putInsert key value n.content).length % 2 = 0 := by
        rw [putInsert_length]
        omega
      have hdist2 : keysDistinct (pairKeys (putInsert key value n.content)) = true := by
        rw [keysDistinct_iff]
        by_cases hsc : key.kind = .scalar
        · rw [putInsert_pairKeys key value hsc n.content hev]
          rw [(insertKey_perm key.value (pairKeys n.content)).nodup_iff]
          exact List.nodup_cons.mpr ⟨hfresh, hnodup⟩
        · rw [putInsert_not_scalar key value hsc n.content,
            pairKeys_append_pair key value n.content hev]
          rw [List.nodup_append]
          refine ⟨hnodup, List.nodup_singleton _, ?_⟩
          intro a ha hb
          simp only [List.mem_singleton] at hb
          subst hb
          exact hfresh ha
      exact wf_withContent_mapping n _ hm hlen2 hdist2
        (putInsert_nodesWf key value hk hv n.content hwl)
  · simp [Node.put, hm, hn]

theorem deleteAux_spec (key : String) :
    ∀ l, l.length % 2 = 0 →
      (deleteAux key l).1.length % 2 = 0 ∧
      (pairKeys (deleteAux key l).1).Sublist (pairKeys l) ∧
      (nodesWf l = true → nodesWf (deleteAux key l).1 = true)
  | [] => by
    intro h
    simp [deleteAux, pairKeys, nodesWf]
  | [k] => by
    intro h
    simp at h
  | k :: v :: rest => by
    intro hev
    have hev2 : rest.length % 2 = 0 := by
      simp only [List.length_cons] at hev
      omega
    obtain ⟨h1, h2, h3⟩ := deleteAux_spec key rest hev2
    simp only [deleteAux]
    by_cases hk : k.value = key
    · rw [if_pos hk]
      refine ⟨h1, ?_, fun hw => ?_⟩
      · exact h2.trans (by simp [pairKeys])
      · simp only [nodesWf, Bool.and_eq_true] at hw
        exact h3 hw.2.2
    · rw [if_neg hk]
      refine ⟨?_, ?_, fun hw => ?_⟩
      · simp only [List.length_cons]
        omega
      · simp only [pairKeys]
        exact h2.cons₂ k.value
      · simp only [nodesWf, Bool.and_eq_true] at hw
        simp [nodesWf, hw.1, hw.2.1, h3 hw.2.2]

/-- `Delete` preserves the Mapping invariant. -/
theorem delete_wf (n : Node) (key : String) (hn : n.wf = true) :
    (n.delete key).1.wf = true := by
  by_cases hm : n.kind = .mapping
  · obtain ⟨hmap, hwl⟩ := wf_parts n hn
    obtain ⟨hev, hdist⟩ := hmap hm
    obtain ⟨h1, h2, h3⟩ := deleteAux_spec key n.content hev
    simp only [Node.delete, hm, if_true]
    exact wf_withContent_mapping n _ hm h1
      (by
        rw [keysDistinct_iff]
        exact h2.nodup ((keysDistinct_iff _).mp hdist))
      (h3 hwl)
  · simp [Node.delete, hm, hn]

theorem get_wf (n : Node) (key : String) (v : Node) (hn : n.wf = true)
    (hg : n.get key = some v) : v.wf = true := by
  simp only [Node.get] at hg
  by_cases hm : n.kind = .mapping
  · rw [if_pos hm] at hg
    exact (nodesWf_iff n.content).mp (wf_parts n hn).2 v (getAux_mem key n.content v hg)
  · rw [if_neg hm] at hg
    cases hg

mutual

/-- `Merge` preserves the Mapping invariant. -/
theorem merge_wf (n other : Node) (hn : n.wf = true) (ho : other.wf = true) :
    (n.merge other).wf = true := by
  rw [Node.merge]
  by_cases hkind : n.kind ≠ other.kind
  · rw [if_pos hkind]
    exact ho
  · rw [if_neg hkind]
    cases hk : n.kind with
    | mapping => exact mergeMapPairs_wf n other.content hn hk (wf_parts other ho).2
    | sequence =>
      apply wf_withContent_not_mapping
      · rw [hk]
        simp
      · rw [nodesWf_append, (wf_parts n hn).2, (wf_parts other ho).2]
        rfl
    | document => exact ho
    | scalar => exact ho
    | «alias» => exact ho
termination_by sizeOf other

/-- The `ForEachMap` fold of `Merge` preserves the invariant. -/
theorem mergeMapPairs_wf (n : Node) (l : List Node) (hn : n.wf = true)
    (hm : n.kind = .mapping) (hl : nodesWf l = true) :
    (mergeMapPairs n l).wf = true := by
  cases l with
  | nil => simpa [mergeMapPairs] using hn
  | cons k rest0 =>
    cases rest0 with
    | nil => simpa [mergeMapPairs] using hn
    | cons v rest =>
      simp only [mergeMapPairs]
      simp only [nodesWf, Bool.and_eq_true] at hl
      cases hg : n.get k.value with
      | some cur =>
        have hcur : cur.wf = true := get_wf n k.value cur hn hg
        have hmv : (cur.merge v).wf = true := merge_wf cur v hcur hl.2.1
        have hn2 : ((n.put k (cur.merge v)).1).wf = true :=
          put_wf n k (cur.merge v) hn hl.1 hmv
        have hk2 : ((n.put k (cur.merge v)).1).kind = .mapping := by
          rw [put_kind]
          exact hm
        exact mergeMapPairs_wf _ rest hn2 hk2 hl.2.2
      | none =>
        have hn2 := put_wf n k v hn hl.1 hl.2.1
        have hk2 : ((n.put k v).1).kind = .mapping := by
          rw [put_kind]
          exact hm
        exact mergeMapPairs_wf _ rest hn2 hk2 hl.2.2
termination_by sizeOf l

end

theorem setMapValue_spec (key : String) (c2 : Node) :
    ∀ l, (setMapValue key c2 l).length = l.length ∧
      pairKeys (setMapValue key c2 l) = pairKeys l ∧
      (c2.wf = true → nodesWf l = true → nodesWf (setMapValue key c2 l) = true)
  | [] => by simp [setMapValue]
  | [k] => by simp [setMapValue]
  | k :: v :: rest => by
    by_cases hk : k.value = key
    · refine ⟨?_, ?_, ?_⟩ <;> simp only [setMapValue, if_pos hk]
      · simp
      · simp [pairKeys]
      · intro hc hw
        simp only [nodesWf, Bool.and_eq_true] at hw
        simp [nodesWf, hw.1, hc, hw.2.2]
    · obtain ⟨h1, h2, h3⟩ := setMapValue_spec key c2 rest
      refine ⟨?_, ?_, ?_⟩ <;> simp only [setMapValue, if_neg hk]
      · simp [h1]
      · simp [pairKeys, h2]
      · intro hc hw
        simp only [nodesWf, Bool.and_eq_true] at hw
        simp [nodesWf, hw.1, hw.2.1, h3 hc hw.2.2]

theorem nodesWf_set (l : List Node) (i : Nat) (c2 : Node) (hc : c2.wf = true)
    (hl : nodesWf l = true) : nodesWf (l.set i c2) = true := by
  rw [nodesWf_iff]
  intro x hx
  rcases List.mem_or_eq_of_mem_set hx with hx1 | rfl
  · exact (nodesWf_iff l).mp hl x hx1
  · exact hc

theorem newStringNode_wf (s f : String) : (newStringNode s f).wf = true := by
  rw [wf_def]
  simp [newStringNode, Node.kind, Node.content, nodesWf]

theorem nullNode_wf : nullNode.wf = true := by
  rw [wf_def]
  simp [nullNode, Node.kind, Node.content, nodesWf]

/-- The rebuild-along-the-path walk preserves the invariant whenever the
operation applied at the target does. -/
theorem modifyAux_wf (f : Node → Except PErr Node)
    (hf : ∀ t, t.wf = true → ∀ m, f t = Except.ok m → m.wf = true) :
    ∀ p n m, n.wf = true → modifyAux f n p = Except.ok m → m.wf = true
  | [], n, m => fun hn h => hf n hn m (by simpa [modifyAux] using h)
  | t :: rest, n, m => by
    intro hn h
    simp only [modifyAux] at h
    split at h
    case _ c hg =>
      cases hrec : modifyAux f c rest with
      | error e =>
        rw [hrec] at h
        simp [Except.map] at h
      | ok c2 =>
        rw [hrec] at h
        simp only [Except.map, Except.ok.injEq] at h
        subst h
        have hc : c.wf = true := get_wf n t.str c hn hg
        have hc2 : c2.wf = true := modifyAux_wf f hf rest c c2 hc hrec
        have hm : n.kind = .mapping := by
          by_contra hk
          simp [Node.get, hk] at hg
        obtain ⟨hmap, hwl⟩ := wf_parts n hn
        obtain ⟨hev, hdist⟩ := hmap hm
        obtain ⟨hlen, hkeys, hwf2⟩ := setMapValue_spec t.str c2 n.content
        exact wf_withContent_mapping n _ hm (by rw [hlen]; exact hev)
          (by rw [hkeys]; exact hdist) (hwf2 hc2 hwl)
    case _ hg =>
      by_cases h1 : ¬t.isIndex
      · rw [if_pos h1] at h
        cases h
      · rw [if_neg h1] at h
        by_cases h2 : n.kind ≠ .sequence
        · rw [if_pos h2] at h
          cases h
        · rw [if_neg h2] at h
          by_cases h3 : t.index < 0
          · rw [if_pos h3] at h
            cases h
          · rw [if_neg h3] at h
            by_cases h4 : t.index ≥ (n.content.length : Int)
            · rw [if_pos h4] at h
              cases h
            · rw [if_neg h4] at h
              cases hrec : modifyAux f (n.content.getD t.index.toNat nullNode) rest with
              | error e =>
                rw [hrec] at h
                simp [Except.map] at h
              | ok c2 =>
                rw [hrec] at h
                simp only [Except.map, Except.ok.injEq] at h
                subst h
                have hidx : t.index.toNat < n.content.length := by omega
                have hmem : n.content.getD t.index.toNat nullNode ∈ n.content := by
                  rw [List.getD_eq_getElem n.content nullNode hidx]
                  exact List.getElem_mem hidx
                have hc : (n.content.getD t.index.toNat nullNode).wf = true :=
                  (nodesWf_iff _).mp (wf_parts n hn).2 _ hmem
                have hc2 : c2.wf = true := modifyAux_wf f hf rest _ c2 hc hrec
                push_neg at h2
                apply wf_withContent_not_mapping
                · rw [h2]
                  simp
                · exact nodesWf_set n.content t.index.toNat c2 hc2 (wf_parts n hn).2

/-- `modifyAtPointer` preserves the invariant whenever the operation does. -/
theorem modifyAtPointer_wf (n : Node) (parent : List JPToken)
    (f : Node → Except PErr Node)
    (hf : ∀ t, t.wf = true → ∀ m, f t = Except.ok m → m.wf = true)
    (m : Node) (hn : n.wf = true) (h : modifyAtPointer n parent f = Except.ok m) :
    m.wf = true := by
  simp only [modifyAtPointer] at h
  by_cases hr : jpString parent = "/"
  · rw [if_pos hr] at h
    exact hf n hn m h
  · rw [if_neg hr] at h
    exact modifyAux_wf f hf parent n m hn h

theorem jsonPatchAddAt_wf (child : JPToken) (ps file : String) (newValue : Node)
    (hv : newValue.wf = true) (t : Node) (ht : t.wf = true) (m : Node)
    (h : jsonPatchAddAt child ps file newValue t = Except.ok m) : m.wf = true := by
  simp only [jsonPatchAddAt] at h
  by_cases h1 : child.isIndex ∧ t.kind = .sequence
  · rw [if_pos h1] at h
    by_cases h2 : child.index < 0
    · rw [if_pos h2] at h
      simp only [Except.ok.injEq] at h
      subst h
      apply wf_withContent_not_mapping
      · rw [h1.2]
        simp
      · rw [nodesWf_append, (wf_parts t ht).2]
        simp [nodesWf, hv]
    · rw [if_neg h2] at h
      by_cases h3 : child.index > (t.content.length : Int)
      · rw [if_pos h3] at h
        cases h
      · rw [if_neg h3] at h
        simp only [Except.ok.injEq] at h
        subst h
        apply wf_withContent_not_mapping
        · rw [h1.2]
          simp
        · rw [nodesWf_append]
          have hwl := (wf_parts t ht).2
          have htake : nodesWf (t.content.take child.index.toNat) = true := by
            rw [nodesWf_iff]
            intro x hx
            exact (nodesWf_iff _).mp hwl x (List.mem_of_mem_take hx)
          have hdrop : nodesWf (t.content.drop child.index.toNat) = true := by
            rw [nodesWf_iff]
            intro x hx
            exact (nodesWf_iff _).mp hwl x (List.mem_of_mem_drop hx)
          simp [htake, nodesWf, hv, hdrop]
  · rw [if_neg h1] at h
    by_cases h4 : t.kind = .mapping
    · rw [if_pos h4] at h
      simp only [Except.ok.injEq] at h
      subst h
      exact put_wf t _ newValue ht (newStringNode_wf child.str file) hv
    · rw [if_neg h4] at h
      cases h

theorem jsonPatchRemoveAt_wf (child : JPToken) (jpStr ps : String)
    (t : Node) (ht : t.wf = true) (m : Node)
    (h : jsonPatchRemoveAt child jpStr ps t = Except.ok m) : m.wf = true := by
  simp only [jsonPatchRemoveAt] at h
  by_cases h1 : child.isIndex ∧ ¬child.isLastIndex ∧ t.kind = .sequence
  · rw [if_pos h1] at h
    by_cases h2 : child.index ≥ (t.content.length : Int)
    · rw [if_pos h2] at h
      cases h
    · rw [if_neg h2] at h
      simp only [Except.ok.injEq] at h
      subst h
      apply wf_withContent_not_mapping
      · rw [h1.2.2]
        simp
      · rw [nodesWf_iff]
        intro x hx
        exact (nodesWf_iff _).mp (wf_parts t ht).2 x (List.mem_of_mem_eraseIdx hx)
  · rw [if_neg h1] at h
    by_cases h4 : t.kind = .mapping
    · rw [if_pos h4] at h
      by_cases h5 : (t.delete child.str).2.isSome
      · rw [if_pos h5] at h
        simp only [Except.ok.injEq] at h
        subst h
        exact delete_wf t child.str ht
      · rw [if_neg h5] at h
        cases h
    · rw [if_neg h4] at h
      cases h

/-- `FindNodeByJSONPointer` re-creates every resolution failure via
`fmt.Errorf`, so it can never return the `errNotFound` sentinel itself. -/
theorem findByPointerStr_ne_notFound (n : Node) (path : String) :
    n.findByPointerStr path ≠ Except.error PErr.notFound := by
  simp only [Node.findByPointerStr]
  cases parseJSONPointer path with
  | none => simp
  | some p =>
    simp only
    by_cases hr : path = "/"
    · rw [if_pos hr]
      simp
    · rw [if_neg hr]
      cases findNodeByJSONPointerAux n p <;> simp

/-- `jsonPatchAdd` preserves the invariant (the auto-vivification branch is
unreachable because the sentinel test can never succeed). -/
theorem jsonPatchAdd_wf (n : Node) (jp : List JPToken) (v : Node) (m : Node)
    (hn : n.wf = true) (hv : v.wf = true)
    (h : jsonPatchAdd n jp v = Except.ok m) : m.wf = true := by
  simp only [jsonPatchAdd] at h
  split at h
  case _ e hf =>
    by_cases he : e = PErr.notFound
    · subst he
      exact absurd hf (findByPointerStr_ne_notFound n _)
    · rw [if_neg he] at h
      cases h
  case _ target hf =>
    exact modifyAtPointer_wf n (jpPop jp).1 _
      (fun t ht m2 h2 => jsonPatchAddAt_wf (jpPop jp).2 (jpString (jpPop jp).1) n.file v
        hv t ht m2 h2) m hn h

/-- `jsonPatchRemove` preserves the invariant. -/
theorem jsonPatchRemove_wf (n : Node) (jp : List JPToken) (m : Node)
    (hn : n.wf = true) (h : jsonPatchRemove n jp = Except.ok m) : m.wf = true := by
  simp only [jsonPatchRemove] at h
  split at h
  case _ e hf => cases h
  case _ target hf =>
    exact modifyAtPointer_wf n (jpPop jp).1 _
      (fun t ht m2 h2 => jsonPatchRemoveAt_wf (jpPop jp).2 (jpString jp)
        (jpString (jpPop jp).1) t ht m2 h2) m hn h

/-- The `replace` patch arm preserves the invariant. -/
theorem jsonPatchReplace_wf (n : Node) (jp : List JPToken) (v : Node) (m : Node)
    (hn : n.wf = true) (hv : v.wf = true)
    (h : jsonPatchReplace n jp v = Except.ok m) : m.wf = true := by
  simp only [jsonPatchReplace] at h
  generalize hg1 : (match jsonPatchRemove n jp with
    | Except.ok m0 => m0
    | Except.error _ => n) = n1 at h
  have hn1wf : n1.wf = true := by
    rw [← hg1]
    split
    case _ m0 hrem => exact jsonPatchRemove_wf n jp m0 hn hrem
    case _ e hrem => exact hn
  split at h
  case _ e2 hadd =>
    by_cases he : e2 = PErr.notFound
    · rw [if_pos he] at h
      simp only [Except.ok.injEq] at h
      subst h
      exact hn1wf
    · rw [if_neg he] at h
      cases h
  case _ m2 hadd =>
    simp only [Except.ok.injEq] at h
    subst h
    exact jsonPatchAdd_wf n1 jp v m2 hn1wf hv hadd

/-- C8: `Node.wf` checks recursively that every Mapping node has an even
number of children (alternating key and value nodes) and pairwise distinct
string keys; the invariant's content is spelled out by the first clause,
and it is preserved by every tree operation — `Put`, `Delete`, `Merge`,
and the patch interpreter's add, remove and replace. -/
theorem mapping_invariant_preserved :
    (∀ n : Node, n.wf = true → n.kind = .mapping →
      n.content.length % 2 = 0 ∧ (pairKeys n.content).Nodup)
    ∧ (∀ n key value : Node, n.wf = true → key.wf = true → value.wf = true →
        (n.put key value).1.wf = true)
    ∧ (∀ (n : Node) (key : String), n.wf = true → (n.delete key).1.wf = true)
    ∧ (∀ n other : Node, n.wf = true → other.wf = true → (n.merge other).wf = true)
    ∧ (∀ (n : Node) (jp : List JPToken) (v m : Node), n.wf = true → v.wf = true →
        jsonPatchAdd n jp v = Except.ok m → m.wf = true)
    ∧ (∀ (n : Node) (jp : List JPToken) (m : Node), n.wf = true →
        jsonPatchRemove n jp = Except.ok m → m.wf = true)
    ∧ (∀ (n : Node) (jp : List JPToken) (v m : Node), n.wf = true → v.wf = true →
        jsonPatchReplace n jp v = Except.ok m → m.wf = true) :=
  ⟨fun n hn hm => ⟨((wf_parts n hn).1 hm).1,
      (keysDistinct_iff _).mp ((wf_parts n hn).1 hm).2⟩,
    put_wf, delete_wf, merge_wf, jsonPatchAdd_wf, jsonPatchRemove_wf, jsonPatchReplace_wf⟩

/-- Witness: the preservation theorem applied to putting the scalar key `a`
with an empty Mapping value into the concrete Mapping `\x7bb: 1\x7d`. -/
theorem mapping_invariant_preserved_witness :
    c4map.wf = true ∧ c4key.wf = true ∧ c4val.wf = true ∧
      (c4map.put c4key c4val).1.wf = true := by
  have h1 : c4map.wf = true := by
    simp [Node.wf, nodesWf, c4map, newStringNode, pairKeys, keysDistinct,
      Node.kind, Node.content]
  have h2 : c4key.wf = true := by
    simp [Node.wf, nodesWf, c4key, newStringNode, pairKeys, keysDistinct,
      Node.kind, Node.content]
  have h3 : c4val.wf = true := by
    simp [Node.wf, nodesWf, c4val, pairKeys, keysDistinct, Node.kind, Node.content]
  exact ⟨h1, h2, h3, mapping_invariant_preserved.2.1 c4map c4key c4val h1 h2 h3⟩

end Yammy
